import Mathlib

/-!
Verification of the fs-lite coordinator (master/server.js).

The repository ships two variants of the coordinator, separated in the
source file; definitions below carry a `V1` suffix for the first variant
and `V2` for the second where they differ.  Bytes are modelled as
`List Nat`, node URLs as `String`, and the SHA-256 hex digest as an
abstract parameter `H : List Nat → String`.  Side effects on storage
nodes and on the KV store are recorded as explicit effect traces.
-/

/-- A storage-node URL. -/
abbrev Url := String

/-- Per-chunk metadata entry: `{chunkId, hash, nodes}` (master/server.js). -/
structure ChunkMeta where
  chunkId : String
  hash : String
  nodes : List Url
deriving DecidableEq, Repr, Inhabited

/-- File metadata document stored under `file:{fileId}` in the KV. -/
structure FileMetadata where
  fileId : String
  filename : String
  totalChunks : Nat
  chunks : List ChunkMeta
deriving DecidableEq, Repr, Inhabited

/-- Observable side effects of the coordinator on storage nodes and the KV. -/
inductive Effect where
  | post (u : Url) (cid : String)
  | del (u : Url) (cid : String)
  | kvSet (key : String) (md : FileMetadata)
  | kvGet (key : String)
  | nodeGet (u : Url) (cid : String)
deriving DecidableEq, Repr

/-- The configured storage-node pool (master/server.js, `NODES`). -/
def NODES : List Url :=
  ["http://localhost:4001", "http://localhost:4002", "http://localhost:4003"]

/-- Function `getAliveNodes`: nodes whose heartbeat in the KV is fresh (< 6000 ms). -/
def getAliveNodes (lastSeen : String → Option Nat) (now : Nat) : List Url :=
  NODES.filter (fun u =>
    match lastSeen ("node:node-" ++ (u.splitOn ":").getLastD "") with
    | none => false
    | some t => now - t < 6000)

/-- The fixed chunk size: `const chunkSize = 1024 * 1024`. -/
def chunkSize : Nat := 1024 * 1024

/-- The upload's chunking loop: `for (i = 0; i < length; i += chunkSize)
push(buffer.slice(i, i + chunkSize))`. -/
def chunksOf (n : Nat) (l : List Nat) : List (List Nat) :=
  if h : n = 0 ∨ l = [] then []
  else l.take n :: chunksOf n (l.drop n)
termination_by l.length
decreasing_by
  push_neg at h
  simp only [List.length_drop]
  have hl : 0 < l.length := List.length_pos.mpr h.2
  omega

theorem chunksOf_nil (n : Nat) : chunksOf n [] = [] := by
  rw [chunksOf]; simp

/-- Concatenating the chunks in order reproduces the original bytes. -/
theorem chunksOf_join (n : Nat) (hn : 0 < n) (l : List Nat) :
    (chunksOf n l).flatten = l := by
  rw [chunksOf]
  by_cases h : n = 0 ∨ l = []
  · rcases h with h | h
    · omega
    · subst h; simp
  · simp only [h, dite_false, List.flatten]
    rw [chunksOf_join n hn (l.drop n)]
    exact List.take_append_drop n l
termination_by l.length
decreasing_by
  push_neg at h
  simp only [List.length_drop]
  have hl : 0 < l.length := List.length_pos.mpr h.2
  omega

/-- Every chunk produced by the splitter has length at most `n`. -/
theorem chunksOf_length_le (n : Nat) (l : List Nat) :
    ∀ p ∈ chunksOf n l, p.length ≤ n := by
  intro p hp
  rw [chunksOf] at hp
  by_cases h : n = 0 ∨ l = []
  · simp [h] at hp
  · simp only [h, dite_false, List.mem_cons] at hp
    rcases hp with hp | hp
    · subst hp; simp [List.length_take]
    · exact chunksOf_length_le n (l.drop n) p hp
termination_by l.length
decreasing_by
  push_neg at h
  simp only [List.length_drop]
  have hl : 0 < l.length := List.length_pos.mpr h.2
  omega

/-- Every chunk except possibly the last has length exactly `n`. -/
theorem chunksOf_length_eq (n : Nat) (l : List Nat) :
    ∀ i, i + 1 < (chunksOf n l).length → ((chunksOf n l).getD i []).length = n := by
  intro i hi
  rw [chunksOf] at hi ⊢
  by_cases h : n = 0 ∨ l = []
  · simp [h] at hi
  · simp only [h, dite_false] at hi ⊢
    match i with
    | 0 =>
      simp only [List.getD_cons_zero, List.length_take]
      simp only [List.length_cons] at hi
      have hrest : chunksOf n (l.drop n) ≠ [] := by
        intro hc; rw [hc] at hi; simp at hi
      have hdrop : l.drop n ≠ [] := by
        intro hc; rw [hc, chunksOf_nil] at hrest; exact hrest rfl
      have : n < l.length := by
        by_contra hc
        push_neg at hc
        exact hdrop (List.drop_eq_nil_of_le hc)
      omega
    | i + 1 =>
      simp only [List.getD_cons_succ]
      simp only [List.length_cons] at hi
      exact chunksOf_length_eq n (l.drop n) i (by omega)
termination_by l.length
decreasing_by
  push_neg at h
  simp only [List.length_drop]
  have hl : 0 < l.length := List.length_pos.mpr h.2
  omega

/-! ## LRU file cache

`fileCache = new LRUCache({max: 5, maxSize: 200*1024*1024, sizeCalculation: v.length})`.
The `lru-cache` package itself is an external dependency, not part of the
repository sources, so its behaviour is modelled from the spec. -/

/-- The cache's entry bound: `max: 5`. -/
def fileCacheMax : Nat := 5

/-- The cache's byte bound: `maxSize: 200 * 1024 * 1024`. -/
def fileCacheMaxSize : Nat := 200 * 1024 * 1024

/-- The in-memory file cache, most-recently-used entry first. -/
abbrev Cache := List (String × List Nat)

/-- Total cached bytes, measured by buffer length (`sizeCalculation`). -/
def totalSize (c : Cache) : Nat := (c.map (fun e => e.2.length)).sum

/-- Modelled from the spec: eviction removes least-recently-used entries
(the tail of the recency list) until both cache bounds hold. -/
def evictLRU (c : Cache) : Cache :=
  if c.length ≤ fileCacheMax ∧ totalSize c ≤ fileCacheMaxSize then c
  else evictLRU c.dropLast
termination_by c.length
decreasing_by
  rcases c with _ | ⟨x, xs⟩
  · simp [fileCacheMax, totalSize] at *
  · simp [List.length_dropLast]

/-- Membership test `fileCache.has(k)`. -/
def cacheHas (c : Cache) (k : String) : Bool := c.any (fun e => e.1 == k)

/-- The buffer returned by `fileCache.get(k)`. -/
def cacheGetBuf (c : Cache) (k : String) : List Nat :=
  match c.find? (fun e => e.1 == k) with
  | some e => e.2
  | none => []

/-- Modelled from the spec: `fileCache.get(k)` refreshes the entry's
recency (strict LRU on access). -/
def cacheTouch (c : Cache) (k : String) : Cache :=
  match c.find? (fun e => e.1 == k) with
  | some e => e :: c.filter (fun x => !(x.1 == k))
  | none => c

/-- Modelled from the spec: `fileCache.set(k, v)` inserts (or replaces)
the entry at the most-recent position and evicts LRU entries until the
count and byte bounds hold. -/
def cacheSet (c : Cache) (k : String) (v : List Nat) : Cache :=
  evictLRU ((k, v) :: c.filter (fun x => !(x.1 == k)))

/-! ## Replicated writer (`POST /upload`) -/

/-- Outcomes of the upload handler.  `rolledBack` corresponds to the first
variant's distinct "Upload failed during replication. Rolled back." error,
`uploadFailed` to the second variant's generic "Upload failed". -/
inductive UploadOutcome where
  | ok (md : FileMetadata)
  | rolledBack
  | uploadFailed
  | insufficientNodes
deriving DecidableEq, Repr

/-- The first variant's rollback loop: a DELETE for every node of every
entry of `storedChunks`, in order. -/
def rollbackEffects (stored : List (String × List Url)) : List Effect :=
  stored.flatMap (fun s => s.2.map (fun n => Effect.del n s.1))

/-- The first variant's per-chunk upload loop (master/server.js lines
169-221): round-robin placement, POST to primary then replica, push to
`storedChunks` and `metadata.chunks` after both succeed, and on any POST
failure roll back everything recorded in `storedChunks`. -/
def uploadChunksV1 (alive : List Url) (postOk : Url → String → Bool)
    (H : List Nat → String) (fid : String) :
    List (List Nat) → Nat → Nat → List (String × List Url) → List ChunkMeta →
    Option (List ChunkMeta) × List Effect × Nat
  | [], _, rr, _, acc => (some acc, [], rr)
  | piece :: rest, i, rr, stored, acc =>
    let cid := fid ++ "_chunk_" ++ toString i
    let primary := alive.getD (rr % alive.length) ""
    let replica := alive.getD ((rr % alive.length + 1) % alive.length) ""
    if postOk primary cid then
      if postOk replica cid then
        match uploadChunksV1 alive postOk H fid rest (i + 1) (rr + 1)
            (stored ++ [(cid, [primary, replica])])
            (acc ++ [⟨cid, H piece, [primary, replica]⟩]) with
        | (res, effs, rr') =>
          (res, Effect.post primary cid :: Effect.post replica cid :: effs, rr')
      else
        (none, Effect.post primary cid :: rollbackEffects stored, rr + 1)
    else
      (none, rollbackEffects stored, rr + 1)

/-- The first variant's `POST /upload` handler body (after the leader and
file checks): alive-node guard, chunk split, replication loop, and the
`file:{fileId}` KV write followed by the success response. -/
def uploadV1 (alive : List Url) (postOk : Url → String → Bool)
    (H : List Nat → String) (fid name : String) (buf : List Nat) (rr : Nat) :
    UploadOutcome × List Effect × Nat :=
  if alive.length < 2 then (.insufficientNodes, [], rr)
  else
    match uploadChunksV1 alive postOk H fid (chunksOf chunkSize buf) 0 rr [] [] with
    | (some chunks, effs, rr') =>
      let md : FileMetadata := ⟨fid, name, (chunksOf chunkSize buf).length, chunks⟩
      (.ok md, effs ++ [Effect.kvSet ("file:" ++ fid) md], rr')
    | (none, effs, rr') => (.rolledBack, effs, rr')

/-- The second variant's per-chunk upload loop (master/server.js second
document): same placement, but a failed POST simply raises, with no
rollback DELETEs. -/
def uploadChunksV2 (alive : List Url) (postOk : Url → String → Bool)
    (H : List Nat → String) (fid : String) :
    List (List Nat) → Nat → Nat → List ChunkMeta →
    Option (List ChunkMeta) × List Effect × Nat
  | [], _, rr, acc => (some acc, [], rr)
  | piece :: rest, i, rr, acc =>
    let cid := fid ++ "_chunk_" ++ toString i
    let primary := alive.getD (rr % alive.length) ""
    let replica := alive.getD ((rr + 1) % alive.length) ""
    if postOk primary cid then
      if postOk replica cid then
        match uploadChunksV2 alive postOk H fid rest (i + 1) (rr + 1)
            (acc ++ [⟨cid, H piece, [primary, replica]⟩]) with
        | (res, effs, rr') =>
          (res, Effect.post primary cid :: Effect.post replica cid :: effs, rr')
      else (none, [Effect.post primary cid], rr + 1)
    else (none, [], rr + 1)

/-- The second variant's `POST /upload` handler body: no rollback; any
storage failure yields the generic "Upload failed" error. -/
def uploadV2 (alive : List Url) (postOk : Url → String → Bool)
    (H : List Nat → String) (fid name : String) (buf : List Nat) (rr : Nat) :
    UploadOutcome × List Effect × Nat :=
  if alive.length < 2 then (.insufficientNodes, [], rr)
  else
    match uploadChunksV2 alive postOk H fid (chunksOf chunkSize buf) 0 rr [] with
    | (some chunks, effs, rr') =>
      let md : FileMetadata := ⟨fid, name, chunks.length, chunks⟩
      (.ok md, effs ++ [Effect.kvSet ("file:" ++ fid) md], rr')
    | (none, effs, rr') => (.uploadFailed, effs, rr')

/-! ## Reconstructing reader (`GET /download/:fileId`) -/

/-- Result of the download handler. `body` is a 200 response carrying the
reconstructed (or cached) bytes and the optional `Content-Disposition`
header value. -/
inductive DownloadRes where
  | body (buf : List Nat) (disposition : Option String)
  | notFound
  | replicasFailed
  | integrityFailed
  | downloadFailed
deriving DecidableEq, Repr

/-- Intermediate result of the first variant's chunk-fetch loop. -/
inductive FetchRes where
  | ok (bufs : List (List Nat))
  | replicasFailed
  | integrityFailed
deriving DecidableEq, Repr

/-- The first variant's per-chunk replica loop: try each node of
`chunk.nodes` in order, first successful `GET /chunk/:id` wins. -/
def fetchChunk (fetch : Url → String → Option (List Nat)) (cid : String) :
    List Url → Option (List Nat) × List Effect
  | [] => (none, [])
  | n :: ns =>
    match fetch n cid with
    | some b => (some b, [Effect.nodeGet n cid])
    | none =>
      match fetchChunk fetch cid ns with
      | (r, effs) => (r, Effect.nodeGet n cid :: effs)

/-- The first variant's download loop over `metadata.chunks`: fetch each
chunk, abort if all replicas fail, verify SHA-256 against `chunk.hash`,
abort on mismatch, otherwise accumulate the buffers in order. -/
def downloadChunksV1 (fetch : Url → String → Option (List Nat))
    (H : List Nat → String) : List ChunkMeta → FetchRes × List Effect
  | [] => (.ok [], [])
  | c :: rest =>
    match fetchChunk fetch c.chunkId c.nodes with
    | (none, effs) => (.replicasFailed, effs)
    | (some b, effs) =>
      if H b = c.hash then
        match downloadChunksV1 fetch H rest with
        | (.ok bufs, effs') => (.ok (b :: bufs), effs ++ effs')
        | (r, effs') => (r, effs ++ effs')
      else (.integrityFailed, effs)

/-- The first variant's `GET /download/:fileId` handler: cache check (a hit
is served with `Content-Disposition: attachment; filename="cached_<fileId>"`
and no KV or node I/O), KV metadata lookup, chunk fetch with integrity
verification, concatenation, cache fill, and the response carrying
`filename="<metadata.filename>"`. -/
def downloadV1 (cache : Cache) (kv : String → Option FileMetadata)
    (fetch : Url → String → Option (List Nat)) (H : List Nat → String)
    (fileId : String) : DownloadRes × List Effect × Cache :=
  if cacheHas cache fileId then
    (.body (cacheGetBuf cache fileId)
      (some ("attachment; filename=\"cached_" ++ fileId ++ "\"")),
     [], cacheTouch cache fileId)
  else
    match kv ("file:" ++ fileId) with
    | none => (.notFound, [Effect.kvGet ("file:" ++ fileId)], cache)
    | some md =>
      match downloadChunksV1 fetch H md.chunks with
      | (.ok bufs, effs) =>
        (.body bufs.flatten
          (some ("attachment; filename=\"" ++ md.filename ++ "\"")),
         Effect.kvGet ("file:" ++ fileId) :: effs,
         cacheSet cache fileId bufs.flatten)
      | (.replicasFailed, effs) =>
        (.replicasFailed, Effect.kvGet ("file:" ++ fileId) :: effs, cache)
      | (.integrityFailed, effs) =>
        (.integrityFailed, Effect.kvGet ("file:" ++ fileId) :: effs, cache)

/-- The second variant's per-chunk replica loop inside `reconstructFile`:
`if (avoidNode && node === avoidNode) continue;` then first successful
fetch wins. -/
def fetchAvoid (fetch : Url → String → Option (List Nat)) (avoid : Option Url)
    (cid : String) : List Url → Option (List Nat) × List Effect
  | [] => (none, [])
  | n :: ns =>
    if avoid = some n then fetchAvoid fetch avoid cid ns
    else
      match fetch n cid with
      | some b => (some b, [Effect.nodeGet n cid])
      | none =>
        match fetchAvoid fetch avoid cid ns with
        | (r, effs) => (r, Effect.nodeGet n cid :: effs)

/-- The chunk loop of the second variant's `reconstructFile`: any chunk
with no usable replica throws ("Reconstruction failed", modelled as
`none`).  No integrity check is performed. -/
def reconstructChunks (fetch : Url → String → Option (List Nat))
    (avoid : Option Url) : List ChunkMeta → Option (List (List Nat)) × List Effect
  | [] => (some [], [])
  | c :: rest =>
    match fetchAvoid fetch avoid c.chunkId c.nodes with
    | (none, effs) => (none, effs)
    | (some b, effs) =>
      match reconstructChunks fetch avoid rest with
      | (r, effs') => (r.map (fun bufs => b :: bufs), effs ++ effs')

/-- The second variant's `reconstructFile(metadata, avoidNode)`. -/
def reconstructFile (fetch : Url → String → Option (List Nat))
    (avoid : Option Url) (md : FileMetadata) : Option (List Nat) × List Effect :=
  match reconstructChunks fetch avoid md.chunks with
  | (r, effs) => (r.map List.flatten, effs)

/-- The second variant's `GET /download/:fileId` handler: a cache hit is
served with no `Content-Disposition` header; otherwise reconstruct via
`reconstructFile` (no integrity verification) and fill the cache. -/
def downloadV2 (cache : Cache) (kv : String → Option FileMetadata)
    (fetch : Url → String → Option (List Nat)) (fileId : String) :
    DownloadRes × List Effect × Cache :=
  if cacheHas cache fileId then
    (.body (cacheGetBuf cache fileId) none, [], cacheTouch cache fileId)
  else
    match kv ("file:" ++ fileId) with
    | none => (.notFound, [Effect.kvGet ("file:" ++ fileId)], cache)
    | some md =>
      match reconstructFile fetch none md with
      | (none, effs) =>
        (.downloadFailed, Effect.kvGet ("file:" ++ fileId) :: effs, cache)
      | (some buf, effs) =>
        (.body buf none, Effect.kvGet ("file:" ++ fileId) :: effs,
         cacheSet cache fileId buf)

/-! ## Predictive pre-cache -/

/-- Log lines of `preCacheFilesFromNode`: "Pre-caching file", "Cached" and
"Pre-cache failed". -/
inductive PreLog where
  | attempt (fid : String)
  | cachedOk (fid : String)
  | failed (fid : String)
deriving DecidableEq, Repr

/-- Function `preCacheFilesFromNode(nodeUrl)`: for each file metadata in the KV,
skip it if already cached or if no chunk's `nodes` contains `nodeUrl`;
otherwise reconstruct avoiding `nodeUrl` and cache the result, logging a
failure (and continuing) when reconstruction throws. -/
def preCacheFilesFromNode (fetch : Url → String → Option (List Nat))
    (nodeUrl : Url) : List FileMetadata → Cache → Cache × List PreLog
  | [], cache => (cache, [])
  | md :: rest, cache =>
    if cacheHas cache md.fileId then preCacheFilesFromNode fetch nodeUrl rest cache
    else if md.chunks.any (fun c => c.nodes.contains nodeUrl) then
      match reconstructFile fetch (some nodeUrl) md with
      | (some buf, _) =>
        match preCacheFilesFromNode fetch nodeUrl rest (cacheSet cache md.fileId buf) with
        | (c', logs) => (c', PreLog.attempt md.fileId :: PreLog.cachedOk md.fileId :: logs)
      | (none, _) =>
        match preCacheFilesFromNode fetch nodeUrl rest cache with
        | (c', logs) => (c', PreLog.attempt md.fileId :: PreLog.failed md.fileId :: logs)
    else preCacheFilesFromNode fetch nodeUrl rest cache

/-! ## Rebalancer -/

/-- The first variant's per-chunk rebalance step: it first *filters*
`chunk.nodes` down to the alive set ("Remove dead nodes from metadata"),
then, if fewer than two replicas remain and at least one survives, copies
the chunk from `nodes[0]` to the first alive node not already present.
Returns the updated chunk and whether a target was appended. -/
def rebalanceChunkV1 (alive : List Url) (transfer : Url → Url → String → Bool)
    (c : ChunkMeta) : ChunkMeta × Bool :=
  let ns := c.nodes.filter (fun n => alive.contains n)
  if 2 ≤ ns.length then ({ c with nodes := ns }, false)
  else if ns.length = 0 then ({ c with nodes := ns }, false)
  else
    match alive.find? (fun n => !(ns.contains n)) with
    | none => ({ c with nodes := ns }, false)
    | some target =>
      if transfer (ns.headD "") target c.chunkId then
        ({ c with nodes := ns ++ [target] }, true)
      else ({ c with nodes := ns }, false)

/-- The first variant's rebalance pass over one file's metadata, with the
`updated` flag controlling the KV write-back. -/
def rebalanceFileV1 (alive : List Url) (transfer : Url → Url → String → Bool)
    (md : FileMetadata) : FileMetadata × Bool :=
  let results := md.chunks.map (rebalanceChunkV1 alive transfer)
  ({ md with chunks := results.map Prod.fst }, results.any Prod.snd)

/-- The second variant's per-chunk rebalance step ("DO NOT remove blackout
nodes"): only chunks with fewer than two listed replicas are touched, and
the only mutation is appending the chosen target. -/
def rebalanceChunkV2 (alive : List Url) (transfer : Url → Url → String → Bool)
    (c : ChunkMeta) : ChunkMeta × Bool :=
  if 2 ≤ c.nodes.length then (c, false)
  else
    match alive.find? (fun n => !(c.nodes.contains n)) with
    | none => (c, false)
    | some target =>
      if transfer (c.nodes.headD "") target c.chunkId then
        ({ c with nodes := c.nodes ++ [target] }, true)
      else (c, false)

/-- The second variant's rebalance pass over one file's metadata. -/
def rebalanceFileV2 (alive : List Url) (transfer : Url → Url → String → Bool)
    (md : FileMetadata) : FileMetadata × Bool :=
  let results := md.chunks.map (rebalanceChunkV2 alive transfer)
  ({ md with chunks := results.map Prod.fst }, results.any Prod.snd)

/-! ## Rebalancer: what each variant does to `chunk.nodes` -/

theorem rebalanceChunkV2_nodes_superset (alive : List Url)
    (transfer : Url → Url → String → Bool) (c : ChunkMeta) :
    c.nodes ⊆ (rebalanceChunkV2 alive transfer c).1.nodes := by
  unfold rebalanceChunkV2
  split
  · exact fun a ha => ha
  · split
    · exact fun a ha => ha
    · split
      · exact fun a ha => List.mem_append_left _ ha
      · exact fun a ha => ha

theorem rebalanceFileV2_chunks_length (alive : List Url)
    (transfer : Url → Url → String → Bool) (md : FileMetadata) :
    (rebalanceFileV2 alive transfer md).1.chunks.length = md.chunks.length := by
  simp [rebalanceFileV2]

/-- Concrete inputs for the first-variant rebalance: a doubly-replicated
chunk one of whose listed nodes is dead. -/
def c1md : FileMetadata :=
  ⟨"f1", "a.txt", 1,
   [⟨"f1_chunk_0", "h0", ["http://localhost:4001", "http://localhost:4002"]⟩]⟩

/-- Alive snapshot for the first-variant rebalance counterexample. -/
def c1alive : List Url := ["http://localhost:4002", "http://localhost:4003"]

/-- C1 counterexample: the first variant's rebalance pass drops the dead
node `http://localhost:4001` from the chunk's `nodes` and marks the
metadata dirty, so the persisted `nodes` set is not a superset of the set
before the tick. -/
theorem rebalanceV1_removes_dead_node :
    "http://localhost:4001" ∈ (c1md.chunks.getD 0 default).nodes ∧
    "http://localhost:4001" ∉
      ((rebalanceFileV1 c1alive (fun _ _ _ => true) c1md).1.chunks.getD 0 default).nodes ∧
    (rebalanceFileV1 c1alive (fun _ _ _ => true) c1md).2 = true := by
  refine ⟨by decide, by decide, by decide⟩

/-- C1 (amended): the second variant's rebalancer never removes a member
of any chunk's `nodes`; for every file metadata it processes, each chunk's
resulting `nodes` is a superset of the set before the tick. -/
theorem rebalanceV2_nodes_superset (alive : List Url)
    (transfer : Url → Url → String → Bool) (md : FileMetadata) (i : Nat) :
    (md.chunks.getD i default).nodes ⊆
      ((rebalanceFileV2 alive transfer md).1.chunks.getD i default).nodes := by
  by_cases hi : i < md.chunks.length
  · have hi' : i < (rebalanceFileV2 alive transfer md).1.chunks.length := by
      rw [rebalanceFileV2_chunks_length]; exact hi
    rw [List.getD_eq_getElem _ _ hi, List.getD_eq_getElem _ _ hi']
    have : (rebalanceFileV2 alive transfer md).1.chunks =
        md.chunks.map (fun c => (rebalanceChunkV2 alive transfer c).1) := by
      simp [rebalanceFileV2]
    simp only [this, List.getElem_map]
    exact rebalanceChunkV2_nodes_superset alive transfer md.chunks[i]
  · push_neg at hi
    have hi' : (rebalanceFileV2 alive transfer md).1.chunks.length ≤ i := by
      rw [rebalanceFileV2_chunks_length]; exact hi
    rw [List.getD_eq_default _ _ hi, List.getD_eq_default _ _ hi']
    exact fun a ha => ha

/-- Witness for the amended C1 theorem at a concrete metadata. -/
theorem rebalanceV2_nodes_superset_witness :
    (c1md.chunks.getD 0 default).nodes ⊆
      ((rebalanceFileV2 c1alive (fun _ _ _ => true) c1md).1.chunks.getD 0 default).nodes :=
  rebalanceV2_nodes_superset c1alive (fun _ _ _ => true) c1md 0

/-! ## LRU cache bounds -/

theorem evictLRU_bounds (c : Cache) :
    (evictLRU c).length ≤ fileCacheMax ∧ totalSize (evictLRU c) ≤ fileCacheMaxSize := by
  rw [evictLRU]
  split
  · assumption
  · exact evictLRU_bounds c.dropLast
termination_by c.length
decreasing_by
  rcases c with _ | ⟨x, xs⟩
  · simp [fileCacheMax, totalSize] at *
  · simp [List.length_dropLast]

theorem totalSize_filter_le (p : String × List Nat → Bool) (c : Cache) :
    totalSize (c.filter p) ≤ totalSize c := by
  induction c with
  | nil => simp [totalSize]
  | cons x xs ih =>
    by_cases hx : p x
    · simp only [totalSize, List.filter_cons, hx, ite_true, List.map_cons, List.sum_cons]
      exact Nat.add_le_add_left ih _
    · simp only [totalSize, List.filter_cons, hx, ite_false, List.map_cons, List.sum_cons]
      calc totalSize (xs.filter p) ≤ totalSize xs := ih
        _ ≤ x.2.length + totalSize xs := Nat.le_add_left _ _

theorem find?_filter_size (k : String) :
    ∀ (c : Cache) (e : String × List Nat),
      c.find? (fun x => x.1 == k) = some e →
      e.2.length + totalSize (c.filter (fun x => !(x.1 == k))) ≤ totalSize c ∧
      (c.filter (fun x => !(x.1 == k))).length + 1 ≤ c.length := by
  intro c
  induction c with
  | nil => intro e he; simp at he
  | cons x xs ih =>
    intro e he
    by_cases hx : x.1 == k
    · rw [@List.find?_cons_of_pos _ (fun y => y.1 == k) x xs hx] at he
      cases he
      simp only [List.filter_cons, hx, Bool.not_true, ite_false, totalSize,
        List.map_cons, List.sum_cons, List.length_cons]
      constructor
      · exact Nat.add_le_add_left (totalSize_filter_le _ xs) _
      · exact Nat.succ_le_succ (List.length_filter_le _ xs)
    · rw [@List.find?_cons_of_neg _ (fun y => y.1 == k) x xs (by simpa using hx)] at he
      obtain ⟨h1, h2⟩ := ih e he
      simp only [List.filter_cons, hx, Bool.not_false, ite_true, totalSize,
        List.map_cons, List.sum_cons, List.length_cons]
      constructor
      · simp only [totalSize] at h1
        omega
      · omega

theorem cacheTouch_length_le (c : Cache) (k : String) :
    (cacheTouch c k).length ≤ c.length := by
  unfold cacheTouch
  cases he : c.find? (fun e => e.1 == k) with
  | none => exact Nat.le_refl _
  | some e =>
    have := (find?_filter_size k c e he).2
    simpa using this

theorem cacheTouch_totalSize_le (c : Cache) (k : String) :
    totalSize (cacheTouch c k) ≤ totalSize c := by
  unfold cacheTouch
  cases he : c.find? (fun e => e.1 == k) with
  | none => exact Nat.le_refl _
  | some e =>
    have := (find?_filter_size k c e he).1
    simpa [totalSize] using this

/-- Abstract cache operations: an insertion (`fileCache.set`) or an access
(`fileCache.get`, which refreshes recency). -/
inductive CacheOp where
  | set (k : String) (v : List Nat)
  | access (k : String)

/-- Apply one cache operation. -/
def applyCacheOp (c : Cache) : CacheOp → Cache
  | .set k v => cacheSet c k v
  | .access k => cacheTouch c k

/-- C9: after any sequence of cache insertions and accesses, `fileCache`
holds at most 5 entries and at most `200 * 1024 * 1024` cached bytes. -/
theorem fileCache_bounds (ops : List CacheOp) :
    (ops.foldl applyCacheOp []).length ≤ fileCacheMax ∧
    totalSize (ops.foldl applyCacheOp []) ≤ fileCacheMaxSize := by
  suffices h : ∀ c : Cache,
      c.length ≤ fileCacheMax → totalSize c ≤ fileCacheMaxSize →
      (ops.foldl applyCacheOp c).length ≤ fileCacheMax ∧
      totalSize (ops.foldl applyCacheOp c) ≤ fileCacheMaxSize by
    exact h [] (by simp [fileCacheMax]) (by simp [totalSize, fileCacheMaxSize])
  induction ops with
  | nil => intro c h1 h2; exact ⟨h1, h2⟩
  | cons op rest ih =>
    intro c h1 h2
    simp only [List.foldl_cons]
    cases op with
    | set k v => exact ih (cacheSet c k v) (evictLRU_bounds _).1 (evictLRU_bounds _).2
    | access k =>
      exact ih (cacheTouch c k) (Nat.le_trans (cacheTouch_length_le c k) h1)
        (Nat.le_trans (cacheTouch_totalSize_le c k) h2)

/-! ## Round-robin placement -/

theorem NODES_nodup : NODES.Nodup := by decide

theorem getAliveNodes_nodup (lastSeen : String → Option Nat) (now : Nat) :
    (getAliveNodes lastSeen now).Nodup :=
  NODES_nodup.filter _

/-- With at least two distinct alive nodes, the first variant's round-robin
indices `rr % L` and `(rr % L + 1) % L` select distinct members of the
snapshot. -/
theorem roundRobin_place (alive : List Url) (hnd : alive.Nodup)
    (h2 : 2 ≤ alive.length) (k : Nat) :
    alive.getD (k % alive.length) "" ≠
      alive.getD ((k % alive.length + 1) % alive.length) "" ∧
    alive.getD (k % alive.length) "" ∈ alive ∧
    alive.getD ((k % alive.length + 1) % alive.length) "" ∈ alive := by
  have hL : 0 < alive.length := by omega
  have hi : k % alive.length < alive.length := Nat.mod_lt _ hL
  have hj : (k % alive.length + 1) % alive.length < alive.length := Nat.mod_lt _ hL
  have hne : k % alive.length ≠ (k % alive.length + 1) % alive.length := by
    rcases Nat.lt_or_ge (k % alive.length + 1) alive.length with hlt | hge
    · rw [Nat.mod_eq_of_lt hlt]; omega
    · have heq : k % alive.length + 1 = alive.length := by omega
      rw [heq, Nat.mod_self]; omega
  rw [List.getD_eq_getElem _ _ hi, List.getD_eq_getElem _ _ hj]
  refine ⟨?_, List.getElem_mem hi, List.getElem_mem hj⟩
  intro hEq
  exact hne ((hnd.getElem_inj_iff).mp hEq)

/-- Same for the second variant's indices `rr % L` and `(rr + 1) % L`. -/
theorem roundRobin_placeV2 (alive : List Url) (hnd : alive.Nodup)
    (h2 : 2 ≤ alive.length) (k : Nat) :
    alive.getD (k % alive.length) "" ≠ alive.getD ((k + 1) % alive.length) "" ∧
    alive.getD (k % alive.length) "" ∈ alive ∧
    alive.getD ((k + 1) % alive.length) "" ∈ alive := by
  have h1 : (k + 1) % alive.length = (k % alive.length + 1) % alive.length := by
    conv_lhs => rw [Nat.add_mod]
    rw [Nat.mod_eq_of_lt (show 1 < alive.length by omega)]
  rw [h1]
  exact roundRobin_place alive hnd h2 k

/-! ## The successful upload loop (first variant) -/

theorem uploadChunksV1_ok_spec (alive : List Url) (postOk : Url → String → Bool)
    (H : List Nat → String) (fid : String) :
    ∀ (pieces : List (List Nat)) (i rr : Nat) (stored : List (String × List Url))
      (acc chunks : List ChunkMeta) (effs : List Effect) (rr' : Nat),
      uploadChunksV1 alive postOk H fid pieces i rr stored acc = (some chunks, effs, rr') →
      ∃ newC : List ChunkMeta,
        chunks = acc ++ newC ∧
        newC.length = pieces.length ∧
        (∀ e ∈ effs, ∃ u cid, e = Effect.post u cid) ∧
        (∀ c ∈ newC,
          (∃ k, c.nodes = [alive.getD (k % alive.length) "",
                           alive.getD ((k % alive.length + 1) % alive.length) ""]) ∧
          ∀ u ∈ c.nodes, Effect.post u c.chunkId ∈ effs) ∧
        (∀ j, j < pieces.length →
          (newC.getD j default).chunkId = fid ++ "_chunk_" ++ toString (i + j) ∧
          (newC.getD j default).hash = H (pieces.getD j [])) := by
  intro pieces
  induction pieces with
  | nil =>
    intro i rr stored acc chunks effs rr' h
    simp only [uploadChunksV1, Prod.mk.injEq, Option.some_inj] at h
    obtain ⟨h1, h2, _⟩ := h
    refine ⟨[], by simp [h1.symm], rfl, by simp [h2.symm], by simp, by simp⟩
  | cons piece rest ih =>
    intro i rr stored acc chunks effs rr' h
    rw [uploadChunksV1] at h
    by_cases hp : postOk (alive.getD (rr % alive.length) "")
        (fid ++ "_chunk_" ++ toString i)
    · rw [if_pos hp] at h
      by_cases hq : postOk (alive.getD ((rr % alive.length + 1) % alive.length) "")
          (fid ++ "_chunk_" ++ toString i)
      · rw [if_pos hq] at h
        rcases hrec : uploadChunksV1 alive postOk H fid rest (i + 1) (rr + 1)
            (stored ++ [(fid ++ "_chunk_" ++ toString i,
              [alive.getD (rr % alive.length) "",
               alive.getD ((rr % alive.length + 1) % alive.length) ""])])
            (acc ++ [⟨fid ++ "_chunk_" ++ toString i, H piece,
              [alive.getD (rr % alive.length) "",
               alive.getD ((rr % alive.length + 1) % alive.length) ""]⟩]) with
          ⟨res, effs0, rr0⟩
        rw [hrec] at h
        simp only [Prod.mk.injEq] at h
        obtain ⟨hres, heffs, hrr⟩ := h
        cases res with
        | none => simp at hres
        | some chunks0 =>
          have hcc : chunks0 = chunks := by simpa using hres
          subst hcc
          obtain ⟨newC, hchunks, hlen, hposts, hmem, hidx⟩ :=
            ih (i + 1) (rr + 1) _ _ chunks0 effs0 rr0 hrec
          refine ⟨⟨fid ++ "_chunk_" ++ toString i, H piece,
              [alive.getD (rr % alive.length) "",
               alive.getD ((rr % alive.length + 1) % alive.length) ""]⟩ :: newC,
            ?_, by simp [hlen], ?_, ?_, ?_⟩
          · simp [hchunks]
          · intro e he
            rw [heffs.symm] at he
            simp only [List.mem_cons] at he
            rcases he with rfl | rfl | he
            · exact ⟨_, _, rfl⟩
            · exact ⟨_, _, rfl⟩
            · exact hposts e he
          · intro c hc
            simp only [List.mem_cons] at hc
            rcases hc with rfl | hc
            · constructor
              · exact ⟨rr, rfl⟩
              · intro u hu
                rw [heffs.symm]
                simp only [List.mem_cons, List.not_mem_nil, or_false] at hu
                rcases hu with rfl | rfl
                · exact List.mem_cons_self _ _
                · exact List.mem_cons_of_mem _ (List.mem_cons_self _ _)
            · obtain ⟨hk, hin⟩ := hmem c hc
              refine ⟨hk, fun u hu => ?_⟩
              rw [heffs.symm]
              exact List.mem_cons_of_mem _ (List.mem_cons_of_mem _ (hin u hu))
          · intro j hj
            match j with
            | 0 => simp
            | j + 1 =>
              simp only [List.getD_cons_succ, List.getD_cons_succ]
              have hij : i + 1 + j = i + (j + 1) := by omega
              have := hidx j (by simpa using Nat.lt_of_succ_lt_succ hj)
              rw [hij] at this
              exact this
      · rw [if_neg hq] at h
        simp at h
    · rw [if_neg hp] at h
      simp at h

/-! ## The successful upload loop (second variant) -/

theorem uploadChunksV2_ok_spec (alive : List Url) (postOk : Url → String → Bool)
    (H : List Nat → String) (fid : String) :
    ∀ (pieces : List (List Nat)) (i rr : Nat)
      (acc chunks : List ChunkMeta) (effs : List Effect) (rr' : Nat),
      uploadChunksV2 alive postOk H fid pieces i rr acc = (some chunks, effs, rr') →
      ∃ newC : List ChunkMeta,
        chunks = acc ++ newC ∧
        newC.length = pieces.length ∧
        (∀ e ∈ effs, ∃ u cid, e = Effect.post u cid) ∧
        (∀ c ∈ newC,
          (∃ k, c.nodes = [alive.getD (k % alive.length) "",
                           alive.getD ((k + 1) % alive.length) ""]) ∧
          ∀ u ∈ c.nodes, Effect.post u c.chunkId ∈ effs) := by
  intro pieces
  induction pieces with
  | nil =>
    intro i rr acc chunks effs rr' h
    simp only [uploadChunksV2, Prod.mk.injEq, Option.some_inj] at h
    obtain ⟨h1, h2, _⟩ := h
    refine ⟨[], by simp [h1.symm], rfl, by simp [h2.symm], by simp⟩
  | cons piece rest ih =>
    intro i rr acc chunks effs rr' h
    rw [uploadChunksV2] at h
    by_cases hp : postOk (alive.getD (rr % alive.length) "")
        (fid ++ "_chunk_" ++ toString i)
    · rw [if_pos hp] at h
      by_cases hq : postOk (alive.getD ((rr + 1) % alive.length) "")
          (fid ++ "_chunk_" ++ toString i)
      · rw [if_pos hq] at h
        rcases hrec : uploadChunksV2 alive postOk H fid rest (i + 1) (rr + 1)
            (acc ++ [⟨fid ++ "_chunk_" ++ toString i, H piece,
              [alive.getD (rr % alive.length) "",
               alive.getD ((rr + 1) % alive.length) ""]⟩]) with
          ⟨res, effs0, rr0⟩
        rw [hrec] at h
        simp only [Prod.mk.injEq] at h
        obtain ⟨hres, heffs, hrr⟩ := h
        cases res with
        | none => simp at hres
        | some chunks0 =>
          have hcc : chunks0 = chunks := by simpa using hres
          subst hcc
          obtain ⟨newC, hchunks, hlen, hposts, hmem⟩ :=
            ih (i + 1) (rr + 1) _ chunks0 effs0 rr0 hrec
          refine ⟨⟨fid ++ "_chunk_" ++ toString i, H piece,
              [alive.getD (rr % alive.length) "",
               alive.getD ((rr + 1) % alive.length) ""]⟩ :: newC,
            by simp [hchunks], by simp [hlen], ?_, ?_⟩
          · intro e he
            rw [heffs.symm] at he
            simp only [List.mem_cons] at he
            rcases he with rfl | rfl | he
            · exact ⟨_, _, rfl⟩
            · exact ⟨_, _, rfl⟩
            · exact hposts e he
          · intro c hc
            simp only [List.mem_cons] at hc
            rcases hc with rfl | hc
            · constructor
              · exact ⟨rr, rfl⟩
              · intro u hu
                rw [heffs.symm]
                simp only [List.mem_cons, List.not_mem_nil, or_false] at hu
                rcases hu with rfl | rfl
                · exact List.mem_cons_self _ _
                · exact List.mem_cons_of_mem _ (List.mem_cons_self _ _)
            · obtain ⟨hk, hin⟩ := hmem c hc
              refine ⟨hk, fun u hu => ?_⟩
              rw [heffs.symm]
              exact List.mem_cons_of_mem _ (List.mem_cons_of_mem _ (hin u hu))
      · rw [if_neg hq] at h
        simp at h
    · rw [if_neg hp] at h
      simp at h

/-- C4: for every upload performed with a snapshot of at least two alive
nodes, each chunk's primary and replica are distinct URLs drawn from the
snapshot, and every chunk recorded in the metadata of a successful upload
has a `nodes` list of exactly two distinct members (both variants). -/
theorem upload_two_distinct_replicas (lastSeen : String → Option Nat) (now : Nat)
    (postOk : Url → String → Bool) (H : List Nat → String)
    (fid name : String) (buf : List Nat) (rr : Nat)
    (h2 : 2 ≤ (getAliveNodes lastSeen now).length) :
    (∀ md effs rr2,
      uploadV1 (getAliveNodes lastSeen now) postOk H fid name buf rr =
        (.ok md, effs, rr2) →
      ∀ c ∈ md.chunks, ∃ p r, c.nodes = [p, r] ∧ p ≠ r ∧
        p ∈ getAliveNodes lastSeen now ∧ r ∈ getAliveNodes lastSeen now) ∧
    (∀ md effs rr2,
      uploadV2 (getAliveNodes lastSeen now) postOk H fid name buf rr =
        (.ok md, effs, rr2) →
      ∀ c ∈ md.chunks, ∃ p r, c.nodes = [p, r] ∧ p ≠ r ∧
        p ∈ getAliveNodes lastSeen now ∧ r ∈ getAliveNodes lastSeen now) := by
  set alive := getAliveNodes lastSeen now with halive
  have hnd : alive.Nodup := getAliveNodes_nodup lastSeen now
  constructor
  · intro md effs rr2 hup
    rw [uploadV1, if_neg (by omega)] at hup
    rcases hloop : uploadChunksV1 alive postOk H fid (chunksOf chunkSize buf) 0 rr [] []
      with ⟨res, effs0, rr0⟩
    rw [hloop] at hup
    cases res with
    | none => simp at hup
    | some chunks =>
      simp only [Prod.mk.injEq, UploadOutcome.ok.injEq] at hup
      obtain ⟨hmd, _, _⟩ := hup
      obtain ⟨newC, hchunks, _, _, hmem, _⟩ :=
        uploadChunksV1_ok_spec alive postOk H fid _ 0 rr [] [] chunks effs0 rr0 hloop
      intro c hc
      rw [hmd.symm] at hc
      simp only at hc
      rw [hchunks] at hc
      simp only [List.nil_append] at hc
      obtain ⟨⟨k, hk⟩, _⟩ := hmem c hc
      obtain ⟨hne, hp, hr⟩ := roundRobin_place alive hnd h2 k
      exact ⟨_, _, hk, hne, hp, hr⟩
  · intro md effs rr2 hup
    rw [uploadV2, if_neg (by omega)] at hup
    rcases hloop : uploadChunksV2 alive postOk H fid (chunksOf chunkSize buf) 0 rr []
      with ⟨res, effs0, rr0⟩
    rw [hloop] at hup
    cases res with
    | none => simp at hup
    | some chunks =>
      simp only [Prod.mk.injEq, UploadOutcome.ok.injEq] at hup
      obtain ⟨hmd, _, _⟩ := hup
      obtain ⟨newC, hchunks, _, _, hmem⟩ :=
        uploadChunksV2_ok_spec alive postOk H fid _ 0 rr [] chunks effs0 rr0 hloop
      intro c hc
      rw [hmd.symm] at hc
      simp only at hc
      rw [hchunks] at hc
      simp only [List.nil_append] at hc
      obtain ⟨⟨k, hk⟩, _⟩ := hmem c hc
      obtain ⟨hne, hp, hr⟩ := roundRobin_placeV2 alive hnd h2 k
      exact ⟨_, _, hk, hne, hp, hr⟩

/-! ## Rollback accounting (first variant) -/

/-- The `(node, chunkId)` pairs of successful POSTs in a trace. -/
def postPairs (effs : List Effect) : List (Url × String) :=
  effs.filterMap (fun e => match e with | .post u cid => some (u, cid) | _ => none)

/-- The `(node, chunkId)` pairs of DELETEs in a trace. -/
def delPairs (effs : List Effect) : List (Url × String) :=
  effs.filterMap (fun e => match e with | .del u cid => some (u, cid) | _ => none)

/-- The `(node, chunkId)` pairs recorded in `storedChunks`. -/
def storedPairs (stored : List (String × List Url)) : List (Url × String) :=
  stored.flatMap (fun s => s.2.map (fun n => (n, s.1)))

theorem delPairs_append (a b : List Effect) :
    delPairs (a ++ b) = delPairs a ++ delPairs b := by
  simp [delPairs, List.filterMap_append]

theorem postPairs_append (a b : List Effect) :
    postPairs (a ++ b) = postPairs a ++ postPairs b := by
  simp [postPairs, List.filterMap_append]

theorem delPairs_rollback (stored : List (String × List Url)) :
    delPairs (rollbackEffects stored) = storedPairs stored := by
  induction stored with
  | nil => simp [rollbackEffects, storedPairs, delPairs]
  | cons s rest ih =>
    simp only [rollbackEffects, storedPairs, List.flatMap_cons] at *
    rw [delPairs_append, ih]
    congr 1
    induction s.2 with
    | nil => simp [delPairs]
    | cons n ns ihn => simp [delPairs, List.filterMap_cons] at *; exact ihn

theorem postPairs_rollback (stored : List (String × List Url)) :
    postPairs (rollbackEffects stored) = [] := by
  induction stored with
  | nil => simp [rollbackEffects, postPairs]
  | cons s rest ih =>
    simp only [rollbackEffects, List.flatMap_cons] at *
    rw [postPairs_append, ih]
    simp only [List.append_nil]
    induction s.2 with
    | nil => simp [postPairs]
    | cons n ns ihn => simpa [postPairs, List.filterMap_cons] using ihn

theorem rollback_all_del (stored : List (String × List Url)) :
    ∀ e ∈ rollbackEffects stored, ∃ u cid, e = Effect.del u cid := by
  intro e he
  simp only [rollbackEffects, List.mem_flatMap, List.mem_map] at he
  obtain ⟨s, _, n, _, rfl⟩ := he
  exact ⟨n, s.1, rfl⟩

/-- On a failed run of the first variant's chunk loop, the DELETEs issued
are the pairs of `storedChunks` at entry plus those of the chunks fully
replicated during the run: the trace's successful POSTs minus, when the
count is odd, the final one (the partially-stored chunk's primary). -/
theorem uploadChunksV1_fail_spec (alive : List Url) (postOk : Url → String → Bool)
    (H : List Nat → String) (fid : String) :
    ∀ (pieces : List (List Nat)) (i rr : Nat) (stored : List (String × List Url))
      (acc : List ChunkMeta) (effs : List Effect) (rr' : Nat),
      uploadChunksV1 alive postOk H fid pieces i rr stored acc = (none, effs, rr') →
      delPairs effs =
        storedPairs stored ++ (postPairs effs).take (2 * ((postPairs effs).length / 2)) ∧
      (∀ e ∈ effs, (∃ u cid, e = Effect.post u cid) ∨ (∃ u cid, e = Effect.del u cid)) := by
  intro pieces
  induction pieces with
  | nil =>
    intro i rr stored acc effs rr' h
    simp [uploadChunksV1] at h
  | cons piece rest ih =>
    intro i rr stored acc effs rr' h
    rw [uploadChunksV1] at h
    by_cases hp : postOk (alive.getD (rr % alive.length) "")
        (fid ++ "_chunk_" ++ toString i)
    · rw [if_pos hp] at h
      by_cases hq : postOk (alive.getD ((rr % alive.length + 1) % alive.length) "")
          (fid ++ "_chunk_" ++ toString i)
      · rw [if_pos hq] at h
        rcases hrec : uploadChunksV1 alive postOk H fid rest (i + 1) (rr + 1)
            (stored ++ [(fid ++ "_chunk_" ++ toString i,
              [alive.getD (rr % alive.length) "",
               alive.getD ((rr % alive.length + 1) % alive.length) ""])])
            (acc ++ [⟨fid ++ "_chunk_" ++ toString i, H piece,
              [alive.getD (rr % alive.length) "",
               alive.getD ((rr % alive.length + 1) % alive.length) ""]⟩]) with
          ⟨res, effs0, rr0⟩
        rw [hrec] at h
        simp only [Prod.mk.injEq] at h
        obtain ⟨hres, heffs, hrr⟩ := h
        cases res with
        | some chunks0 => simp at hres
        | none =>
          obtain ⟨hdel, hform⟩ := ih (i + 1) (rr + 1) _ _ effs0 rr0 hrec
          rw [heffs.symm]
          constructor
          · have hsp : storedPairs (stored ++ [(fid ++ "_chunk_" ++ toString i,
                [alive.getD (rr % alive.length) "",
                 alive.getD ((rr % alive.length + 1) % alive.length) ""])]) =
                storedPairs stored ++
                  [(alive.getD (rr % alive.length) "", fid ++ "_chunk_" ++ toString i),
                   (alive.getD ((rr % alive.length + 1) % alive.length) "",
                    fid ++ "_chunk_" ++ toString i)] := by
              simp [storedPairs]
            have hpost : postPairs (Effect.post (alive.getD (rr % alive.length) "")
                  (fid ++ "_chunk_" ++ toString i) ::
                Effect.post (alive.getD ((rr % alive.length + 1) % alive.length) "")
                  (fid ++ "_chunk_" ++ toString i) :: effs0) =
                (alive.getD (rr % alive.length) "", fid ++ "_chunk_" ++ toString i) ::
                (alive.getD ((rr % alive.length + 1) % alive.length) "",
                 fid ++ "_chunk_" ++ toString i) :: postPairs effs0 := by
              simp [postPairs, List.filterMap_cons]
            have hdel2 : delPairs (Effect.post (alive.getD (rr % alive.length) "")
                  (fid ++ "_chunk_" ++ toString i) ::
                Effect.post (alive.getD ((rr % alive.length + 1) % alive.length) "")
                  (fid ++ "_chunk_" ++ toString i) :: effs0) = delPairs effs0 := by
              simp [delPairs, List.filterMap_cons]
            rw [hdel2, hpost, hdel, hsp]
            simp only [List.length_cons]
            have htake : (2 * (((postPairs effs0).length + 1 + 1) / 2)) =
                2 * ((postPairs effs0).length / 2) + 2 := by omega
            rw [htake]
            simp [List.take_succ_cons, List.append_assoc]
          · intro e he
            simp only [List.mem_cons] at he
            rcases he with rfl | rfl | he
            · exact Or.inl ⟨_, _, rfl⟩
            · exact Or.inl ⟨_, _, rfl⟩
            · exact hform e he
      · rw [if_neg hq] at h
        simp only [Prod.mk.injEq] at h
        obtain ⟨_, heffs, _⟩ := h
        rw [heffs.symm]
        constructor
        · have hpost : postPairs (Effect.post (alive.getD (rr % alive.length) "")
                (fid ++ "_chunk_" ++ toString i) :: rollbackEffects stored) =
              [(alive.getD (rr % alive.length) "", fid ++ "_chunk_" ++ toString i)] := by
            simp [postPairs, List.filterMap_cons]
            have := postPairs_rollback stored
            simpa [postPairs] using this
          have hdel2 : delPairs (Effect.post (alive.getD (rr % alive.length) "")
                (fid ++ "_chunk_" ++ toString i) :: rollbackEffects stored) =
              delPairs (rollbackEffects stored) := by
            simp [delPairs, List.filterMap_cons]
          rw [hdel2, delPairs_rollback, hpost]
          simp
        · intro e he
          simp only [List.mem_cons] at he
          rcases he with rfl | he
          · exact Or.inl ⟨_, _, rfl⟩
          · exact Or.inr (rollback_all_del stored e he)
    · rw [if_neg hp] at h
      simp only [Prod.mk.injEq] at h
      obtain ⟨_, heffs, _⟩ := h
      rw [heffs.symm]
      constructor
      · rw [delPairs_rollback, postPairs_rollback]
        simp
      · exact fun e he => Or.inr (rollback_all_del stored e he)

/-- The second variant's chunk loop issues only POSTs — no DELETEs ever. -/
theorem uploadChunksV2_effs (alive : List Url) (postOk : Url → String → Bool)
    (H : List Nat → String) (fid : String) :
    ∀ (pieces : List (List Nat)) (i rr : Nat) (acc : List ChunkMeta)
      (res : Option (List ChunkMeta)) (effs : List Effect) (rr' : Nat),
      uploadChunksV2 alive postOk H fid pieces i rr acc = (res, effs, rr') →
      ∀ e ∈ effs, ∃ u cid, e = Effect.post u cid := by
  intro pieces
  induction pieces with
  | nil =>
    intro i rr acc res effs rr' h
    simp only [uploadChunksV2, Prod.mk.injEq] at h
    obtain ⟨_, h2, _⟩ := h
    rw [h2.symm]
    simp
  | cons piece rest ih =>
    intro i rr acc res effs rr' h
    rw [uploadChunksV2] at h
    by_cases hp : postOk (alive.getD (rr % alive.length) "")
        (fid ++ "_chunk_" ++ toString i)
    · rw [if_pos hp] at h
      by_cases hq : postOk (alive.getD ((rr + 1) % alive.length) "")
          (fid ++ "_chunk_" ++ toString i)
      · rw [if_pos hq] at h
        rcases hrec : uploadChunksV2 alive postOk H fid rest (i + 1) (rr + 1)
            (acc ++ [⟨fid ++ "_chunk_" ++ toString i, H piece,
              [alive.getD (rr % alive.length) "",
               alive.getD ((rr + 1) % alive.length) ""]⟩]) with
          ⟨res0, effs0, rr0⟩
        rw [hrec] at h
        simp only [Prod.mk.injEq] at h
        obtain ⟨_, heffs, _⟩ := h
        rw [heffs.symm]
        intro e he
        simp only [List.mem_cons] at he
        rcases he with rfl | rfl | he
        · exact ⟨_, _, rfl⟩
        · exact ⟨_, _, rfl⟩
        · exact ih (i + 1) (rr + 1) _ res0 effs0 rr0 hrec e he
      · rw [if_neg hq] at h
        simp only [Prod.mk.injEq] at h
        obtain ⟨_, heffs, _⟩ := h
        rw [heffs.symm]
        intro e he
        simp only [List.mem_cons, List.not_mem_nil, or_false] at he
        rw [he]
        exact ⟨_, _, rfl⟩
    · rw [if_neg hp] at h
      simp only [Prod.mk.injEq] at h
      obtain ⟨_, heffs, _⟩ := h
      rw [heffs.symm]
      intro e he
      simp at he

/-- Splitting a short non-empty buffer yields a single chunk. -/
theorem chunksOf_single (n : Nat) (l : List Nat) (hl : l ≠ []) (hlen : l.length ≤ n) :
    chunksOf n l = [l] := by
  have hn : ¬(n = 0 ∨ l = []) := by
    push_neg
    refine ⟨?_, hl⟩
    intro h0
    subst h0
    exact hl (List.eq_nil_of_length_eq_zero (Nat.le_zero.mp hlen))
  rw [chunksOf, dif_neg hn, List.take_of_length_le hlen, List.drop_eq_nil_of_le hlen,
    chunksOf_nil]

/-- The C3 counterexample run: two alive nodes, the replica node's POST
fails on the first chunk of a one-chunk upload. -/
def c3run : UploadOutcome × List Effect × Nat :=
  uploadV1 ["http://localhost:4001", "http://localhost:4002"]
    (fun u _ => u == "http://localhost:4001") (fun _ => "h") "f" "a.txt" [0] 0

/-- C3 counterexample: with the replica POST failing, the upload rolls
back, the current chunk's primary was successfully stored
(`Effect.post` present), yet no DELETE is issued for it — the rollback
does not cover the primary of the partially-stored current chunk. -/
theorem uploadV1_rollback_misses_partial_primary :
    c3run.1 = UploadOutcome.rolledBack ∧
    Effect.post "http://localhost:4001" "f_chunk_0" ∈ c3run.2.1 ∧
    Effect.del "http://localhost:4001" "f_chunk_0" ∉ c3run.2.1 := by
  have hsplit : chunksOf chunkSize [0] = [[0]] :=
    chunksOf_single chunkSize [0] (by simp) (by simp [chunkSize])
  unfold c3run
  rw [uploadV1, if_neg (by simp), hsplit]
  exact ⟨by decide, by decide, by decide⟩

/-- C3 (amended): when a storage-node POST fails during an upload, the
first variant issues DELETEs for exactly the `(node, chunkId)` pairs of
the chunks that were fully replicated before the failure — the trace's
successful POSTs minus, when their count is odd, the last one (the
partially-stored current chunk's primary, which is *not* deleted) — and
returns the distinct rolled-back error; the second variant issues no
DELETEs at all and never returns the rolled-back error. -/
theorem uploadV1_rollback_deletes (alive : List Url) (postOk : Url → String → Bool)
    (H : List Nat → String) (fid name : String) (buf : List Nat) (rr : Nat) :
    (∀ effs rr2,
      uploadV1 alive postOk H fid name buf rr = (.rolledBack, effs, rr2) →
      delPairs effs = (postPairs effs).take (2 * ((postPairs effs).length / 2))) ∧
    (∀ o2 effs2 rr3,
      uploadV2 alive postOk H fid name buf rr = (o2, effs2, rr3) →
      delPairs effs2 = [] ∧ o2 ≠ .rolledBack) := by
  constructor
  · intro effs rr2 hup
    rw [uploadV1] at hup
    by_cases hlt : alive.length < 2
    · rw [if_pos hlt] at hup
      simp at hup
    · rw [if_neg hlt] at hup
      rcases hloop : uploadChunksV1 alive postOk H fid (chunksOf chunkSize buf) 0 rr [] []
        with ⟨res, effs0, rr0⟩
      rw [hloop] at hup
      cases res with
      | some chunks => simp at hup
      | none =>
        simp only [Prod.mk.injEq] at hup
        obtain ⟨_, heffs, _⟩ := hup
        obtain ⟨hdel, _⟩ :=
          uploadChunksV1_fail_spec alive postOk H fid _ 0 rr [] [] effs0 rr0 hloop
        rw [heffs.symm, hdel]
        simp [storedPairs]
  · intro o2 effs2 rr3 hup
    rw [uploadV2] at hup
    by_cases hlt : alive.length < 2
    · rw [if_pos hlt] at hup
      simp only [Prod.mk.injEq] at hup
      obtain ⟨ho, heffs, _⟩ := hup
      rw [heffs.symm, ho.symm]
      exact ⟨rfl, by simp⟩
    · rw [if_neg hlt] at hup
      rcases hloop : uploadChunksV2 alive postOk H fid (chunksOf chunkSize buf) 0 rr []
        with ⟨res, effs0, rr0⟩
      rw [hloop] at hup
      have hposts := uploadChunksV2_effs alive postOk H fid _ 0 rr [] res effs0 rr0 hloop
      have hdel0 : delPairs effs0 = [] := by
        rw [delPairs, List.filterMap_eq_nil]
        intro e he
        obtain ⟨u, cid, rfl⟩ := hposts e he
        rfl
      cases res with
      | some chunks =>
        simp only [Prod.mk.injEq] at hup
        obtain ⟨ho, heffs, _⟩ := hup
        rw [heffs.symm, ho.symm]
        refine ⟨?_, by simp⟩
        rw [delPairs_append, hdel0]
        simp [delPairs]
      | none =>
        simp only [Prod.mk.injEq] at hup
        obtain ⟨ho, heffs, _⟩ := hup
        rw [heffs.symm, ho.symm]
        exact ⟨hdel0, by simp⟩

/-- Witness for the amended C3 theorem: the counterexample run satisfies
the delete characterization (the sole POST is odd-numbered, so nothing is
deleted), and the second variant's run on the same inputs issues no
DELETEs. -/
theorem uploadV1_rollback_deletes_witness :
    delPairs c3run.2.1 =
      (postPairs c3run.2.1).take (2 * ((postPairs c3run.2.1).length / 2)) ∧
    delPairs (uploadV2 ["http://localhost:4001", "http://localhost:4002"]
      (fun u _ => u == "http://localhost:4001") (fun _ => "h") "f" "a.txt" [0] 0).2.1 = [] := by
  have hsplit : chunksOf chunkSize [0] = [[0]] :=
    chunksOf_single chunkSize [0] (by simp) (by simp [chunkSize])
  constructor
  · apply (uploadV1_rollback_deletes ["http://localhost:4001", "http://localhost:4002"]
      (fun u _ => u == "http://localhost:4001") (fun _ => "h") "f" "a.txt" [0] 0).1
      c3run.2.1 c3run.2.2
    show uploadV1 _ _ _ _ _ _ _ = (UploadOutcome.rolledBack, c3run.2.1, c3run.2.2)
    have h1 : c3run.1 = UploadOutcome.rolledBack := by
      unfold c3run
      rw [uploadV1, if_neg (by simp), hsplit]
      decide
    rw [h1.symm]
    rfl
  · have h := (uploadV1_rollback_deletes ["http://localhost:4001", "http://localhost:4002"]
      (fun u _ => u == "http://localhost:4001") (fun _ => "h") "f" "a.txt" [0] 0).2
    have hrun : uploadV2 ["http://localhost:4001", "http://localhost:4002"]
        (fun u _ => u == "http://localhost:4001") (fun _ => "h") "f" "a.txt" [0] 0 =
        ((uploadV2 ["http://localhost:4001", "http://localhost:4002"]
          (fun u _ => u == "http://localhost:4001") (fun _ => "h") "f" "a.txt" [0] 0).1,
         (uploadV2 ["http://localhost:4001", "http://localhost:4002"]
          (fun u _ => u == "http://localhost:4001") (fun _ => "h") "f" "a.txt" [0] 0).2.1,
         (uploadV2 ["http://localhost:4001", "http://localhost:4002"]
          (fun u _ => u == "http://localhost:4001") (fun _ => "h") "f" "a.txt" [0] 0).2.2) := rfl
    exact (h _ _ _ hrun).1

/-- The metadata produced by a one-chunk upload with all three configured
nodes alive, used as a concrete witness input. -/
def c4md : FileMetadata :=
  ⟨"f", "a", 1, [⟨"f_chunk_0", "h", ["http://localhost:4001", "http://localhost:4002"]⟩]⟩

/-- The effect trace of that upload. -/
def c4effs : List Effect :=
  [Effect.post "http://localhost:4001" "f_chunk_0",
   Effect.post "http://localhost:4002" "f_chunk_0",
   Effect.kvSet "file:f" c4md]

/-- Witness for C4 at a concrete upload with all heartbeats fresh. -/
theorem upload_two_distinct_replicas_witness :
    ∃ p r, (⟨"f_chunk_0", "h",
        ["http://localhost:4001", "http://localhost:4002"]⟩ : ChunkMeta).nodes = [p, r] ∧
      p ≠ r ∧ p ∈ getAliveNodes (fun _ => some 0) 0 ∧
      r ∈ getAliveNodes (fun _ => some 0) 0 := by
  have hsplit : chunksOf chunkSize [1] = [[1]] :=
    chunksOf_single chunkSize [1] (by simp) (by simp [chunkSize])
  have halive : getAliveNodes (fun _ => some 0) 0 = NODES := by decide
  have h2 : 2 ≤ (getAliveNodes (fun _ => some 0) 0).length := by rw [halive]; decide
  have hrun : uploadV1 (getAliveNodes (fun _ => some 0) 0) (fun _ _ => true)
      (fun _ => "h") "f" "a" [1] 0 = (.ok c4md, c4effs, 1) := by
    rw [halive, uploadV1, if_neg (by decide), hsplit]
    decide
  exact (upload_two_distinct_replicas (fun _ => some 0) 0 (fun _ _ => true)
    (fun _ => "h") "f" "a" [1] 0 h2).1 c4md c4effs 1 hrun _ (by decide)

/-! ## Metadata is written once, last (C5) -/

/-- Whether an effect is a KV metadata write. -/
def isKvSet : Effect → Bool
  | .kvSet _ _ => true
  | _ => false

/-- C5: in both upload variants, the `file:{fileId}` metadata write is the
final effect of a successful upload (the success response comes only after
it), it is the only KV write in the trace, every chunk was stored on both
of its nodes before it, and on any non-successful outcome no metadata key
is written at all. -/
theorem upload_metadata_write_once (alive : List Url) (postOk : Url → String → Bool)
    (H : List Nat → String) (fid name : String) (buf : List Nat) (rr : Nat) :
    (∀ o effs rr2, uploadV1 alive postOk H fid name buf rr = (o, effs, rr2) →
      (∀ md, o = .ok md →
        effs.getLast? = some (Effect.kvSet ("file:" ++ fid) md) ∧
        effs.dropLast.filter isKvSet = [] ∧
        ∀ c ∈ md.chunks, ∀ u ∈ c.nodes, Effect.post u c.chunkId ∈ effs.dropLast) ∧
      ((∀ md, o ≠ .ok md) → ∀ k m, Effect.kvSet k m ∉ effs)) ∧
    (∀ o effs rr2, uploadV2 alive postOk H fid name buf rr = (o, effs, rr2) →
      (∀ md, o = .ok md →
        effs.getLast? = some (Effect.kvSet ("file:" ++ fid) md) ∧
        effs.dropLast.filter isKvSet = [] ∧
        ∀ c ∈ md.chunks, ∀ u ∈ c.nodes, Effect.post u c.chunkId ∈ effs.dropLast) ∧
      ((∀ md, o ≠ .ok md) → ∀ k m, Effect.kvSet k m ∉ effs)) := by
  constructor
  · intro o effs rr2 hup
    rw [uploadV1] at hup
    by_cases hlt : alive.length < 2
    · rw [if_pos hlt] at hup
      simp only [Prod.mk.injEq] at hup
      obtain ⟨ho, heffs, _⟩ := hup
      constructor
      · intro md hmd
        rw [ho.symm] at hmd
        simp at hmd
      · intro _ k m hmem
        rw [heffs.symm] at hmem
        simp at hmem
    · rw [if_neg hlt] at hup
      rcases hloop : uploadChunksV1 alive postOk H fid (chunksOf chunkSize buf) 0 rr [] []
        with ⟨res, effs0, rr0⟩
      rw [hloop] at hup
      cases res with
      | some chunks =>
        simp only [Prod.mk.injEq] at hup
        obtain ⟨ho, heffs, _⟩ := hup
        obtain ⟨newC, hchunks, _, hposts, hmem, _⟩ :=
          uploadChunksV1_ok_spec alive postOk H fid _ 0 rr [] [] chunks effs0 rr0 hloop
        constructor
        · intro md hmd
          have hmd0 : (⟨fid, name, (chunksOf chunkSize buf).length, chunks⟩ : FileMetadata)
              = md := by
            rw [ho.symm] at hmd
            simpa using hmd
          rw [heffs.symm, hmd0.symm]
          refine ⟨List.getLast?_concat _, ?_, ?_⟩
          · rw [List.dropLast_concat]
            rw [List.filter_eq_nil]
            intro e he
            obtain ⟨u, cid, rfl⟩ := hposts e he
            simp [isKvSet]
          · intro c hc u hu
            rw [List.dropLast_concat]
            apply (hmem c ?_).2 u hu
            simpa [hchunks] using hc
        · intro hne k m _
          exact absurd (ho.symm ▸ rfl) (hne ⟨fid, name, (chunksOf chunkSize buf).length, chunks⟩)
      | none =>
        simp only [Prod.mk.injEq] at hup
        obtain ⟨ho, heffs, _⟩ := hup
        constructor
        · intro md hmd
          rw [ho.symm] at hmd
          simp at hmd
        · intro _ k m hkm
          rw [heffs.symm] at hkm
          obtain ⟨_, hform⟩ :=
            uploadChunksV1_fail_spec alive postOk H fid _ 0 rr [] [] effs0 rr0 hloop
          rcases hform _ hkm with ⟨u, cid, h⟩ | ⟨u, cid, h⟩ <;> simp at h
  · intro o effs rr2 hup
    rw [uploadV2] at hup
    by_cases hlt : alive.length < 2
    · rw [if_pos hlt] at hup
      simp only [Prod.mk.injEq] at hup
      obtain ⟨ho, heffs, _⟩ := hup
      constructor
      · intro md hmd
        rw [ho.symm] at hmd
        simp at hmd
      · intro _ k m hmem
        rw [heffs.symm] at hmem
        simp at hmem
    · rw [if_neg hlt] at hup
      rcases hloop : uploadChunksV2 alive postOk H fid (chunksOf chunkSize buf) 0 rr []
        with ⟨res, effs0, rr0⟩
      rw [hloop] at hup
      have hform := uploadChunksV2_effs alive postOk H fid _ 0 rr [] res effs0 rr0 hloop
      cases res with
      | some chunks =>
        simp only [Prod.mk.injEq] at hup
        obtain ⟨ho, heffs, _⟩ := hup
        obtain ⟨newC, hchunks, _, hposts, hmem⟩ :=
          uploadChunksV2_ok_spec alive postOk H fid _ 0 rr [] chunks effs0 rr0 hloop
        constructor
        · intro md hmd
          have hmd0 : (⟨fid, name, chunks.length, chunks⟩ : FileMetadata) = md := by
            rw [ho.symm] at hmd
            simpa using hmd
          rw [heffs.symm, hmd0.symm]
          refine ⟨List.getLast?_concat _, ?_, ?_⟩
          · rw [List.dropLast_concat]
            rw [List.filter_eq_nil]
            intro e he
            obtain ⟨u, cid, rfl⟩ := hposts e he
            simp [isKvSet]
          · intro c hc u hu
            rw [List.dropLast_concat]
            apply (hmem c ?_).2 u hu
            simpa [hchunks] using hc
        · intro hne k m _
          exact absurd (ho.symm ▸ rfl) (hne ⟨fid, name, chunks.length, chunks⟩)
      | none =>
        simp only [Prod.mk.injEq] at hup
        obtain ⟨ho, heffs, _⟩ := hup
        constructor
        · intro md hmd
          rw [ho.symm] at hmd
          simp at hmd
        · intro _ k m hkm
          rw [heffs.symm] at hkm
          obtain ⟨u, cid, h⟩ := hform _ hkm
          simp at h

/-- Witness for C5: the one-chunk upload's KV write is last, unique, and
preceded by both chunk POSTs. -/
theorem upload_metadata_write_once_witness :
    c4effs.getLast? = some (Effect.kvSet "file:f" c4md) ∧
    c4effs.dropLast.filter isKvSet = [] ∧
    ∀ c ∈ c4md.chunks, ∀ u ∈ c.nodes, Effect.post u c.chunkId ∈ c4effs.dropLast := by
  have hsplit : chunksOf chunkSize [1] = [[1]] :=
    chunksOf_single chunkSize [1] (by simp) (by simp [chunkSize])
  have hrun : uploadV1 NODES (fun _ _ => true) (fun _ => "h") "f" "a" [1] 0 =
      (.ok c4md, c4effs, 1) := by
    rw [uploadV1, if_neg (by decide), hsplit]
    decide
  exact ((upload_metadata_write_once NODES (fun _ _ => true) (fun _ => "h")
    "f" "a" [1] 0).1 _ _ _ hrun).1 c4md rfl

/-! ## Download round trip (C6) -/

/-- If every chunk's first listed replica serves the expected bytes and
they match the stored hash, the first variant's download loop returns all
chunk buffers in order. -/
theorem downloadChunksV1_ok (fetch : Url → String → Option (List Nat))
    (H : List Nat → String) :
    ∀ (cs : List ChunkMeta) (ps : List (List Nat)),
      List.Forall₂ (fun (c : ChunkMeta) (p : List Nat) =>
        (∃ n ns, c.nodes = n :: ns ∧ fetch n c.chunkId = some p) ∧ H p = c.hash) cs ps →
      ∃ effs, downloadChunksV1 fetch H cs = (.ok ps, effs) := by
  intro cs ps hf
  induction hf with
  | nil => exact ⟨[], rfl⟩
  | @cons c p cs' ps' hcp _ ih =>
    obtain ⟨⟨n, ns, hnodes, hfetch⟩, hhash⟩ := hcp
    obtain ⟨effs0, hrec⟩ := ih
    have hfc : fetchChunk fetch c.chunkId c.nodes =
        (some p, [Effect.nodeGet n c.chunkId]) := by
      rw [hnodes, fetchChunk, hfetch]
    refine ⟨[Effect.nodeGet n c.chunkId] ++ effs0, ?_⟩
    rw [downloadChunksV1, hfc]
    dsimp only
    rw [if_pos hhash, hrec]

/-- C6: the upload splits the payload into consecutive `chunkSize` pieces
(every piece at most `chunkSize` long, every non-final piece exactly
`chunkSize` long) whose in-order concatenation is the original payload;
consequently a download of a successfully uploaded file that fetches every
chunk intact returns exactly the uploaded bytes, under the uploaded
filename. -/
theorem upload_chunking_roundtrip :
    (∀ buf : List Nat, (chunksOf chunkSize buf).flatten = buf ∧
      (∀ p ∈ chunksOf chunkSize buf, p.length ≤ chunkSize) ∧
      (∀ i, i + 1 < (chunksOf chunkSize buf).length →
        ((chunksOf chunkSize buf).getD i []).length = chunkSize)) ∧
    (∀ (alive : List Url) (postOk : Url → String → Bool) (H : List Nat → String)
      (fid name : String) (buf : List Nat) (rr : Nat) md effs rr2
      (fetch : Url → String → Option (List Nat)),
      uploadV1 alive postOk H fid name buf rr = (.ok md, effs, rr2) →
      (∀ u j, j < (chunksOf chunkSize buf).length →
        fetch u (fid ++ "_chunk_" ++ toString j) =
          some ((chunksOf chunkSize buf).getD j [])) →
      ∃ e2 c2, downloadV1 [] (fun k => if k = "file:" ++ fid then some md else none)
          fetch H fid =
        (.body buf (some ("attachment; filename=\"" ++ name ++ "\"")), e2, c2)) := by
  constructor
  · intro buf
    exact ⟨chunksOf_join chunkSize (by simp [chunkSize]) buf,
      chunksOf_length_le chunkSize buf, chunksOf_length_eq chunkSize buf⟩
  · intro alive postOk H fid name buf rr md effs rr2 fetch hup hfetch
    rw [uploadV1] at hup
    by_cases hlt : alive.length < 2
    · rw [if_pos hlt] at hup
      simp at hup
    · rw [if_neg hlt] at hup
      rcases hloop : uploadChunksV1 alive postOk H fid (chunksOf chunkSize buf) 0 rr [] []
        with ⟨res, effs0, rr0⟩
      rw [hloop] at hup
      cases res with
      | none => simp at hup
      | some chunks =>
        simp only [Prod.mk.injEq, UploadOutcome.ok.injEq] at hup
        obtain ⟨hmd, _, _⟩ := hup
        obtain ⟨newC, hchunks, hlen, _, hmem, hidx⟩ :=
          uploadChunksV1_ok_spec alive postOk H fid _ 0 rr [] [] chunks effs0 rr0 hloop
        rw [List.nil_append] at hchunks
        subst hchunks
        have hchunksmd : md.chunks = chunks := by rw [hmd.symm]
        have hnamemd : md.filename = name := by rw [hmd.symm]
        have hf2 : List.Forall₂ (fun (c : ChunkMeta) (p : List Nat) =>
            (∃ n ns, c.nodes = n :: ns ∧ fetch n c.chunkId = some p) ∧ H p = c.hash)
            md.chunks (chunksOf chunkSize buf) := by
          rw [hchunksmd]
          rw [List.forall₂_iff_get]
          refine ⟨hlen, ?_⟩
          intro i h1 h2
          have hgetD : chunks.getD i default = chunks.get ⟨i, h1⟩ :=
            List.getD_eq_getElem _ _ h1
          have hgetDp : (chunksOf chunkSize buf).getD i [] =
              (chunksOf chunkSize buf).get ⟨i, h2⟩ :=
            List.getD_eq_getElem _ _ h2
          obtain ⟨hcid, hhash⟩ := hidx i h2
          have hcmem : chunks.get ⟨i, h1⟩ ∈ chunks := List.get_mem _ _ _
          obtain ⟨⟨k, hk⟩, _⟩ := hmem _ hcmem
          constructor
          · refine ⟨alive.getD (k % alive.length) "",
              [alive.getD ((k % alive.length + 1) % alive.length) ""], hk, ?_⟩
            have := hfetch (alive.getD (k % alive.length) "") i h2
            rw [hgetD.symm, hcid]
            rw [hgetDp.symm]
            simpa using this
          · rw [hgetD.symm, hhash, hgetDp.symm]
        obtain ⟨effsD, hdc⟩ := downloadChunksV1_ok fetch H md.chunks _ hf2
        refine ⟨Effect.kvGet ("file:" ++ fid) :: effsD,
          cacheSet [] fid (chunksOf chunkSize buf).flatten, ?_⟩
        rw [downloadV1, if_neg (by simp [cacheHas])]
        rw [if_pos rfl]
        dsimp only
        rw [hdc]
        rw [hnamemd]
        dsimp only
        rw [chunksOf_join chunkSize (by simp [chunkSize]) buf]

/-- Witness for C6: a one-chunk upload followed by a download against a
fetch function serving the stored bytes returns exactly the uploaded
payload with the uploaded filename. -/
theorem upload_chunking_roundtrip_witness :
    ∃ e2 c2, downloadV1 [] (fun k => if k = "file:" ++ "f" then some c4md else none)
        (fun _ cid => if cid = "f_chunk_0" then some [1] else none) (fun _ => "h") "f" =
      (.body [1] (some ("attachment; filename=\"" ++ "a" ++ "\"")), e2, c2) := by
  have hsplit : chunksOf chunkSize [1] = [[1]] :=
    chunksOf_single chunkSize [1] (by simp) (by simp [chunkSize])
  have hrun : uploadV1 NODES (fun _ _ => true) (fun _ => "h") "f" "a" [1] 0 =
      (.ok c4md, c4effs, 1) := by
    rw [uploadV1, if_neg (by decide), hsplit]
    decide
  refine upload_chunking_roundtrip.2 NODES (fun _ _ => true) (fun _ => "h") "f" "a"
    [1] 0 c4md c4effs 1 _ hrun ?_
  intro u j hj
  rw [hsplit] at hj ⊢
  have hj0 : j = 0 := Nat.lt_one_iff.mp (by simpa using hj)
  subst hj0
  decide

/-! ## Integrity verification (C2) -/

/-- Every buffer in a successful first-variant download matches its
chunk's stored hash. -/
theorem downloadChunksV1_body (fetch : Url → String → Option (List Nat))
    (H : List Nat → String) :
    ∀ (cs : List ChunkMeta) (bufs : List (List Nat)) (effs : List Effect),
      downloadChunksV1 fetch H cs = (.ok bufs, effs) →
      List.Forall₂ (fun (c : ChunkMeta) (b : List Nat) => H b = c.hash) cs bufs := by
  intro cs
  induction cs with
  | nil =>
    intro bufs effs h
    simp only [downloadChunksV1, Prod.mk.injEq, FetchRes.ok.injEq] at h
    rw [h.1.symm]
    exact List.Forall₂.nil
  | cons c rest ih =>
    intro bufs effs h
    rw [downloadChunksV1] at h
    rcases hfc : fetchChunk fetch c.chunkId c.nodes with ⟨rb, effs1⟩
    rw [hfc] at h
    cases rb with
    | none => simp at h
    | some b =>
      dsimp only at h
      by_cases hh : H b = c.hash
      · rw [if_pos hh] at h
        rcases hrec : downloadChunksV1 fetch H rest with ⟨r2, effs2⟩
        rw [hrec] at h
        cases r2 with
        | ok bufs2 =>
          simp only [Prod.mk.injEq, FetchRes.ok.injEq] at h
          rw [h.1.symm]
          exact List.Forall₂.cons hh (ih bufs2 effs2 hrec)
        | replicasFailed => simp at h
        | integrityFailed => simp at h
      · rw [if_neg hh] at h
        simp at h

/-- If every chunk's replica loop yields bytes and some yielded bytes do
not match the stored hash, the first-variant download loop aborts with the
integrity failure. -/
theorem downloadChunksV1_integrity (fetch : Url → String → Option (List Nat))
    (H : List Nat → String) :
    ∀ cs : List ChunkMeta,
      (∀ c ∈ cs, ((fetchChunk fetch c.chunkId c.nodes).1).isSome) →
      (∃ c ∈ cs, ¬ H (((fetchChunk fetch c.chunkId c.nodes).1).getD []) = c.hash) →
      (downloadChunksV1 fetch H cs).1 = FetchRes.integrityFailed := by
  intro cs
  induction cs with
  | nil =>
    intro _ hex
    simp at hex
  | cons c rest ih =>
    intro hall hex
    rw [downloadChunksV1]
    rcases hfc : fetchChunk fetch c.chunkId c.nodes with ⟨rb, effs1⟩
    have hsome := hall c (List.mem_cons_self _ _)
    rw [hfc] at hsome
    cases rb with
    | none => simp at hsome
    | some b =>
      dsimp only
      by_cases hh : H b = c.hash
      · rw [if_pos hh]
        have hex' : ∃ c' ∈ rest,
            ¬ H (((fetchChunk fetch c'.chunkId c'.nodes).1).getD []) = c'.hash := by
          rcases hex with ⟨c', hc', hne⟩
          rcases List.mem_cons.mp hc' with rfl | hmem
          · rw [hfc] at hne
            simp only [Option.getD_some] at hne
            exact absurd hh hne
          · exact ⟨c', hmem, hne⟩
        have hrest := ih (fun c' h' => hall c' (List.mem_cons_of_mem _ h')) hex'
        rcases hrec : downloadChunksV1 fetch H rest with ⟨r2, effs2⟩
        rw [hrec] at hrest
        dsimp only at hrest
        subst hrest
        rfl
      · rw [if_neg hh]

/-- C2 (amended): the first variant's download never returns a body
containing a chunk that fails the hash check — every returned body is the
in-order concatenation of per-chunk buffers each matching its stored
hash — and whenever every chunk is fetchable but some fetched bytes
mismatch their hash, it aborts with the integrity-check failure.  (The
second variant's `reconstructFile` performs no such check; see the
counterexample.) -/
theorem downloadV1_integrity (cache : Cache) (kv : String → Option FileMetadata)
    (fetch : Url → String → Option (List Nat)) (H : List Nat → String)
    (fid : String) (hmiss : cacheHas cache fid = false) :
    (∀ buf d effs c2, downloadV1 cache kv fetch H fid = (.body buf d, effs, c2) →
      ∃ md bufs, kv ("file:" ++ fid) = some md ∧ buf = bufs.flatten ∧
        List.Forall₂ (fun (c : ChunkMeta) (b : List Nat) => H b = c.hash) md.chunks bufs) ∧
    (∀ md, kv ("file:" ++ fid) = some md →
      (∀ c ∈ md.chunks, ((fetchChunk fetch c.chunkId c.nodes).1).isSome) →
      (∃ c ∈ md.chunks, ¬ H (((fetchChunk fetch c.chunkId c.nodes).1).getD []) = c.hash) →
      (downloadV1 cache kv fetch H fid).1 = DownloadRes.integrityFailed) := by
  constructor
  · intro buf d effs c2 h
    rw [downloadV1, if_neg (by simp [hmiss])] at h
    rcases hkv : kv ("file:" ++ fid) with _ | md
    · rw [hkv] at h
      simp at h
    · rw [hkv] at h
      dsimp only at h
      rcases hdc : downloadChunksV1 fetch H md.chunks with ⟨r2, effs2⟩
      rw [hdc] at h
      cases r2 with
      | ok bufs =>
        simp only [Prod.mk.injEq, DownloadRes.body.injEq] at h
        exact ⟨md, bufs, rfl, h.1.1.symm, downloadChunksV1_body fetch H md.chunks bufs effs2 hdc⟩
      | replicasFailed => simp at h
      | integrityFailed => simp at h
  · intro md hkv hall hex
    rw [downloadV1, if_neg (by simp [hmiss]), hkv]
    dsimp only
    have hint := downloadChunksV1_integrity fetch H md.chunks hall hex
    rcases hdc : downloadChunksV1 fetch H md.chunks with ⟨r2, effs2⟩
    rw [hdc] at hint
    dsimp only at hint
    subst hint
    rfl

/-- Metadata for the tampered-chunk scenario: the stored hash is
"deadbeef", but the replica serves bytes whose digest differs. -/
def c2md : FileMetadata :=
  ⟨"f1", "a.txt", 1, [⟨"f1_chunk_0", "deadbeef", ["http://localhost:4001"]⟩]⟩

/-- A storage fetch serving tampered bytes. -/
def c2fetch : Url → String → Option (List Nat) := fun _ _ => some [7]

/-- A digest model under which the served bytes do not match the stored
hash. -/
def c2H : List Nat → String := fun _ => "tampered"

/-- C2 counterexample: the second variant's download returns a 200 body
containing the tampered chunk even though its bytes do not hash to the
chunk's stored `hash` — `reconstructFile` performs no integrity check. -/
theorem downloadV2_skips_integrity_check :
    c2H [7] ≠ "deadbeef" ∧
    (downloadV2 [] (fun k => if k = "file:f1" then some c2md else none)
      c2fetch "f1").1 = DownloadRes.body [7] none := by
  exact ⟨by decide, by decide⟩

/-- Witness for the amended C2 theorem: the tampered single-chunk download
through the first variant aborts with the integrity failure. -/
theorem downloadV1_integrity_witness :
    (downloadV1 [] (fun k => if k = "file:f1" then some c2md else none)
      c2fetch c2H "f1").1 = DownloadRes.integrityFailed := by
  apply (downloadV1_integrity [] (fun k => if k = "file:f1" then some c2md else none)
    c2fetch c2H "f1" (by decide)).2 c2md (by decide)
  · intro c hc
    have : c = ⟨"f1_chunk_0", "deadbeef", ["http://localhost:4001"]⟩ := by
      simpa [c2md] using hc
    rw [this]
    decide
  · refine ⟨⟨"f1_chunk_0", "deadbeef", ["http://localhost:4001"]⟩, by simp [c2md], ?_⟩
    decide

/-! ## Cache-hit download (C7) -/

/-- C7 (amended): a download of a cached fileId is served from the cache
with no KV read and no storage-node request (empty effect trace) and the
cached buffer as body; but the first variant's `Content-Disposition`
names `cached_<fileId>` — the original filename is not cached — and the
second variant sets no `Content-Disposition` at all. -/
theorem download_cache_hit (cache : Cache) (kv : String → Option FileMetadata)
    (fetch : Url → String → Option (List Nat)) (H : List Nat → String)
    (fid : String) (hhit : cacheHas cache fid = true) :
    downloadV1 cache kv fetch H fid =
      (.body (cacheGetBuf cache fid)
        (some ("attachment; filename=\"cached_" ++ fid ++ "\"")),
       [], cacheTouch cache fid) ∧
    downloadV2 cache kv fetch fid =
      (.body (cacheGetBuf cache fid) none, [], cacheTouch cache fid) := by
  constructor
  · rw [downloadV1, if_pos hhit]
  · rw [downloadV2, if_pos hhit]

/-- Cache contents for the C7 counterexample: `f1` is cached while its
metadata records the original filename `a.txt`. -/
def c7cache : Cache := [("f1", [1, 2])]

/-- C7 counterexample: on a cache hit the first variant's
`Content-Disposition` carries `cached_f1`, not the file's original
filename `a.txt` (which is not cached at all), and the second variant
sends no `Content-Disposition`; so the claim's "cached original filename"
is not returned. -/
theorem download_cache_hit_wrong_filename :
    c2md.filename = "a.txt" ∧
    (downloadV1 c7cache (fun k => if k = "file:f1" then some c2md else none)
      c2fetch c2H "f1").1 =
      DownloadRes.body [1, 2] (some "attachment; filename=\"cached_f1\"") ∧
    some ("attachment; filename=\"cached_f1\"") ≠
      some ("attachment; filename=\"" ++ c2md.filename ++ "\"") ∧
    (downloadV2 c7cache (fun k => if k = "file:f1" then some c2md else none)
      c2fetch "f1").1 = DownloadRes.body [1, 2] none := by
  refine ⟨by decide, by decide, by decide, by decide⟩

/-- Witness for the amended C7 theorem at the concrete cache. -/
theorem download_cache_hit_witness :
    downloadV1 c7cache (fun k => if k = "file:f1" then some c2md else none)
      c2fetch c2H "f1" =
      (.body (cacheGetBuf c7cache "f1")
        (some ("attachment; filename=\"cached_" ++ "f1" ++ "\"")),
       [], cacheTouch c7cache "f1") ∧
    downloadV2 c7cache (fun k => if k = "file:f1" then some c2md else none)
      c2fetch "f1" =
      (.body (cacheGetBuf c7cache "f1") none, [], cacheTouch c7cache "f1") :=
  download_cache_hit c7cache (fun k => if k = "file:f1" then some c2md else none)
    c2fetch c2H "f1" (by decide)

/-! ## Zero-byte upload (C10) -/

/-- C10: with at least two alive nodes, uploading an empty payload
succeeds, contacts no storage node (the only effect is the metadata
write), records `totalChunks = 0` with an empty `chunks` list, and a
subsequent download of that fileId succeeds with an empty body (its only
effect the KV read). -/
theorem upload_empty_payload (alive : List Url) (postOk : Url → String → Bool)
    (H : List Nat → String) (fid name : String) (rr : Nat)
    (h2 : 2 ≤ alive.length) :
    ∃ md, uploadV1 alive postOk H fid name [] rr =
        (.ok md, [Effect.kvSet ("file:" ++ fid) md], rr) ∧
      md.totalChunks = 0 ∧ md.chunks = [] ∧
      ∀ fetch, downloadV1 [] (fun k => if k = "file:" ++ fid then some md else none)
          fetch H fid =
        (.body [] (some ("attachment; filename=\"" ++ name ++ "\"")),
         [Effect.kvGet ("file:" ++ fid)], cacheSet [] fid []) := by
  refine ⟨⟨fid, name, 0, []⟩, ?_, rfl, rfl, ?_⟩
  · rw [uploadV1, if_neg (by omega), chunksOf_nil]
    rfl
  · intro fetch
    rw [downloadV1, if_neg (by simp [cacheHas]), if_pos rfl]
    rfl

/-- Witness for C10 with all three configured nodes alive. -/
theorem upload_empty_payload_witness :
    ∃ md, uploadV1 NODES (fun _ _ => true) (fun _ => "h") "f" "a" [] 0 =
        (.ok md, [Effect.kvSet ("file:" ++ "f") md], 0) ∧
      md.totalChunks = 0 ∧ md.chunks = [] ∧
      ∀ fetch, downloadV1 [] (fun k => if k = "file:" ++ "f" then some md else none)
          fetch (fun _ => "h") "f" =
        (.body [] (some ("attachment; filename=\"" ++ "a" ++ "\"")),
         [Effect.kvGet ("file:" ++ "f")], cacheSet [] "f" []) :=
  upload_empty_payload NODES (fun _ _ => true) (fun _ => "h") "f" "a" 0 (by decide)

/-! ## Predictive pre-cache (C8) -/

theorem evictLRU_subset (c : Cache) : ∀ e ∈ evictLRU c, e ∈ c := by
  intro e he
  rw [evictLRU] at he
  split at he
  · exact he
  · exact List.mem_of_mem_dropLast (evictLRU_subset c.dropLast e he)
termination_by c.length
decreasing_by
  rcases c with _ | ⟨x, xs⟩
  · simp [fileCacheMax, totalSize] at *
  · simp [List.length_dropLast]

/-- Inserting one key cannot make another key present. -/
theorem cacheHas_cacheSet_ne (c : Cache) (k k' : String) (v : List Nat)
    (hne : k' ≠ k) (h : cacheHas c k' = false) :
    cacheHas (cacheSet c k v) k' = false := by
  rw [cacheHas, List.any_eq_false]
  intro e he
  have he2 := evictLRU_subset _ e he
  simp only [List.mem_cons] at he2
  rcases he2 with rfl | he2
  · simp only [beq_iff_eq]
    exact fun hk => hne hk.symm
  · have := List.mem_of_mem_filter he2
    rw [cacheHas, List.any_eq_false] at h
    exact h e this

/-- Every node contacted by the avoiding replica loop differs from the
avoided node. -/
theorem fetchAvoid_effs (fetch : Url → String → Option (List Nat)) (url : Url)
    (cid : String) :
    ∀ nodes : List Url, ∀ e ∈ (fetchAvoid fetch (some url) cid nodes).2,
      ∃ n cid2, e = Effect.nodeGet n cid2 ∧ n ≠ url := by
  intro nodes
  induction nodes with
  | nil => intro e he; simp [fetchAvoid] at he
  | cons n ns ih =>
    intro e he
    rw [fetchAvoid] at he
    by_cases hav : (some url : Option Url) = some n
    · rw [if_pos hav] at he
      exact ih e he
    · rw [if_neg hav] at he
      have hne : n ≠ url := by
        intro hq
        exact hav (by rw [hq])
      rcases hf : fetch n cid with _ | b
      · rw [hf] at he
        rcases hrec : fetchAvoid fetch (some url) cid ns with ⟨r, effs⟩
        rw [hrec] at he
        dsimp only at he
        simp only [List.mem_cons] at he
        rcases he with rfl | he
        · exact ⟨n, cid, rfl, hne⟩
        · have := ih e (by rw [hrec]; exact he)
          exact this
      · rw [hf] at he
        dsimp only at he
        simp only [List.mem_cons, List.not_mem_nil, or_false] at he
        rw [he]
        exact ⟨n, cid, rfl, hne⟩

/-- If every non-avoided replica of a chunk fails, the avoiding replica
loop yields nothing. -/
theorem fetchAvoid_none (fetch : Url → String → Option (List Nat)) (url : Url)
    (cid : String) :
    ∀ nodes : List Url, (∀ n ∈ nodes, n ≠ url → fetch n cid = none) →
      (fetchAvoid fetch (some url) cid nodes).1 = none := by
  intro nodes
  induction nodes with
  | nil => intro _; rfl
  | cons n ns ih =>
    intro hall
    rw [fetchAvoid]
    by_cases hav : (some url : Option Url) = some n
    · rw [if_pos hav]
      exact ih (fun m hm => hall m (List.mem_cons_of_mem _ hm))
    · rw [if_neg hav]
      have hne : n ≠ url := fun hq => hav (by rw [hq])
      rw [hall n (List.mem_cons_self _ _) hne]
      rcases hrec : fetchAvoid fetch (some url) cid ns with ⟨r, effs⟩
      dsimp only
      have := ih (fun m hm => hall m (List.mem_cons_of_mem _ hm))
      rw [hrec] at this
      exact this

/-- The reconstruction's node requests all avoid the given node. -/
theorem reconstructChunks_effs (fetch : Url → String → Option (List Nat)) (url : Url) :
    ∀ cs : List ChunkMeta, ∀ e ∈ (reconstructChunks fetch (some url) cs).2,
      ∃ n cid2, e = Effect.nodeGet n cid2 ∧ n ≠ url := by
  intro cs
  induction cs with
  | nil => intro e he; simp [reconstructChunks] at he
  | cons c rest ih =>
    intro e he
    rw [reconstructChunks] at he
    rcases hfa : fetchAvoid fetch (some url) c.chunkId c.nodes with ⟨rb, effs1⟩
    rw [hfa] at he
    cases rb with
    | none =>
      dsimp only at he
      have := fetchAvoid_effs fetch url c.chunkId c.nodes e (by rw [hfa]; exact he)
      exact this
    | some b =>
      rcases hrec : reconstructChunks fetch (some url) rest with ⟨r2, effs2⟩
      rw [hrec] at he
      dsimp only at he
      rw [List.mem_append] at he
      rcases he with he | he
      · exact fetchAvoid_effs fetch url c.chunkId c.nodes e (by rw [hfa]; exact he)
      · exact ih e (by rw [hrec]; exact he)

/-- A chunk with no usable non-avoided replica makes the whole
reconstruction fail. -/
theorem reconstructChunks_blocked (fetch : Url → String → Option (List Nat)) (url : Url) :
    ∀ cs : List ChunkMeta,
      (∃ c ∈ cs, ∀ n ∈ c.nodes, n ≠ url → fetch n c.chunkId = none) →
      (reconstructChunks fetch (some url) cs).1 = none := by
  intro cs
  induction cs with
  | nil => intro hex; simp at hex
  | cons c rest ih =>
    intro hex
    rw [reconstructChunks]
    rcases hfa : fetchAvoid fetch (some url) c.chunkId c.nodes with ⟨rb, effs1⟩
    cases rb with
    | none => rfl
    | some b =>
      rcases hex with ⟨c', hc', hblock⟩
      rcases List.mem_cons.mp hc' with rfl | hmem
      · have := fetchAvoid_none fetch url c'.chunkId c'.nodes hblock
        rw [hfa] at this
        simp at this
      · have hrest := ih ⟨c', hmem, hblock⟩
        rcases hrec : reconstructChunks fetch (some url) rest with ⟨r2, effs2⟩
        rw [hrec] at hrest
        dsimp only at hrest
        subst hrest
        rfl

/-- What each pre-cache log line certifies about the scanned metadata
list. -/
def preLogSource (fetch : Url → String → Option (List Nat)) (url : Url)
    (files : List FileMetadata) : PreLog → Prop
  | .attempt fid => ∃ md ∈ files, md.fileId = fid ∧
      md.chunks.any (fun c => c.nodes.contains url) = true
  | .cachedOk fid => ∃ md ∈ files, md.fileId = fid ∧
      md.chunks.any (fun c => c.nodes.contains url) = true ∧
      ((reconstructFile fetch (some url) md).1).isSome = true
  | .failed fid => ∃ md ∈ files, md.fileId = fid ∧
      md.chunks.any (fun c => c.nodes.contains url) = true ∧
      (reconstructFile fetch (some url) md).1 = none

theorem preCache_log_source (fetch : Url → String → Option (List Nat)) (url : Url) :
    ∀ (files : List FileMetadata) (cache : Cache) (lg : PreLog),
      lg ∈ (preCacheFilesFromNode fetch url files cache).2 →
      preLogSource fetch url files lg := by
  intro files
  induction files with
  | nil =>
    intro cache lg h
    simp [preCacheFilesFromNode] at h
  | cons md0 rest ih =>
    intro cache lg h
    have hlift : ∀ lg, preLogSource fetch url rest lg →
        preLogSource fetch url (md0 :: rest) lg := by
      intro lg hsrc
      cases lg with
      | attempt fid =>
        obtain ⟨md, hmd, h1, h2⟩ := hsrc
        exact ⟨md, List.mem_cons_of_mem _ hmd, h1, h2⟩
      | cachedOk fid =>
        obtain ⟨md, hmd, h1, h2, h3⟩ := hsrc
        exact ⟨md, List.mem_cons_of_mem _ hmd, h1, h2, h3⟩
      | failed fid =>
        obtain ⟨md, hmd, h1, h2, h3⟩ := hsrc
        exact ⟨md, List.mem_cons_of_mem _ hmd, h1, h2, h3⟩
    rw [preCacheFilesFromNode] at h
    by_cases hhas : cacheHas cache md0.fileId = true
    · rw [if_pos hhas] at h
      exact hlift lg (ih cache lg h)
    · rw [if_neg hhas] at h
      by_cases haff : md0.chunks.any (fun c => c.nodes.contains url) = true
      · rw [if_pos haff] at h
        rcases hrec0 : reconstructFile fetch (some url) md0 with ⟨rb, effsR⟩
        rw [hrec0] at h
        cases rb with
        | some buf =>
          dsimp only at h
          rcases hrec : preCacheFilesFromNode fetch url rest
              (cacheSet cache md0.fileId buf) with ⟨c', logs⟩
          rw [hrec] at h
          dsimp only at h
          simp only [List.mem_cons] at h
          rcases h with rfl | rfl | h
          · exact ⟨md0, List.mem_cons_self _ _, rfl, haff⟩
          · exact ⟨md0, List.mem_cons_self _ _, rfl, haff, by rw [hrec0]; rfl⟩
          · exact hlift lg (ih _ lg (by rw [hrec]; exact h))
        | none =>
          dsimp only at h
          rcases hrec : preCacheFilesFromNode fetch url rest cache with ⟨c', logs⟩
          rw [hrec] at h
          dsimp only at h
          simp only [List.mem_cons] at h
          rcases h with rfl | rfl | h
          · exact ⟨md0, List.mem_cons_self _ _, rfl, haff⟩
          · exact ⟨md0, List.mem_cons_self _ _, rfl, haff, by rw [hrec0]⟩
          · exact hlift lg (ih cache lg (by rw [hrec]; exact h))
      · rw [if_neg haff] at h
        exact hlift lg (ih cache lg h)

theorem preCache_log_coverage (fetch : Url → String → Option (List Nat)) (url : Url) :
    ∀ (files : List FileMetadata) (cache : Cache) (md : FileMetadata),
      md ∈ files → (files.map (fun m => m.fileId)).Nodup →
      cacheHas cache md.fileId = false →
      md.chunks.any (fun c => c.nodes.contains url) = true →
      PreLog.attempt md.fileId ∈ (preCacheFilesFromNode fetch url files cache).2 ∧
      (((reconstructFile fetch (some url) md).1).isSome = true →
        PreLog.cachedOk md.fileId ∈ (preCacheFilesFromNode fetch url files cache).2) ∧
      ((reconstructFile fetch (some url) md).1 = none →
        PreLog.failed md.fileId ∈ (preCacheFilesFromNode fetch url files cache).2) := by
  intro files
  induction files with
  | nil =>
    intro cache md hmd
    simp at hmd
  | cons md0 rest ih =>
    intro cache md hmd hnd hhas haff
    have hnd' : (rest.map (fun m => m.fileId)).Nodup := (List.nodup_cons.mp hnd).2
    rw [preCacheFilesFromNode]
    rcases List.mem_cons.mp hmd with rfl | hmem
    · rw [if_neg (by rw [hhas]; simp)]
      rw [if_pos haff]
      rcases hrec0 : reconstructFile fetch (some url) md with ⟨rb, effsR⟩
      cases rb with
      | some buf =>
        dsimp only
        rcases hrec : preCacheFilesFromNode fetch url rest
            (cacheSet cache md.fileId buf) with ⟨c', logs⟩
        dsimp only
        refine ⟨by simp, fun _ => by simp, fun hnone => by simp at hnone⟩
      | none =>
        dsimp only
        rcases hrec : preCacheFilesFromNode fetch url rest cache with ⟨c', logs⟩
        dsimp only
        refine ⟨by simp, fun hsome => by simp at hsome, fun _ => by simp⟩
    · have hne : md.fileId ≠ md0.fileId := by
        intro heq
        have h1 : md0.fileId ∉ rest.map (fun m => m.fileId) := (List.nodup_cons.mp hnd).1
        exact h1 (heq ▸ List.mem_map_of_mem _ hmem)
      by_cases hhas0 : cacheHas cache md0.fileId = true
      · rw [if_pos hhas0]
        exact ih cache md hmem hnd' hhas haff
      · rw [if_neg hhas0]
        by_cases haff0 : md0.chunks.any (fun c => c.nodes.contains url) = true
        · rw [if_pos haff0]
          rcases hrec0 : reconstructFile fetch (some url) md0 with ⟨rb, effsR⟩
          cases rb with
          | some buf =>
            dsimp only
            rcases hrec : preCacheFilesFromNode fetch url rest
                (cacheSet cache md0.fileId buf) with ⟨c', logs⟩
            dsimp only
            have hhas' : cacheHas (cacheSet cache md0.fileId buf) md.fileId = false :=
              cacheHas_cacheSet_ne cache md0.fileId md.fileId buf hne hhas
            obtain ⟨h1, h2, h3⟩ := ih (cacheSet cache md0.fileId buf) md hmem hnd' hhas' haff
            rw [hrec] at h1 h2 h3
            exact ⟨by simp [h1], fun hs => by simp [h2 hs], fun hn => by simp [h3 hn]⟩
          | none =>
            dsimp only
            rcases hrec : preCacheFilesFromNode fetch url rest cache with ⟨c', logs⟩
            dsimp only
            obtain ⟨h1, h2, h3⟩ := ih cache md hmem hnd' hhas haff
            rw [hrec] at h1 h2 h3
            exact ⟨by simp [h1], fun hs => by simp [h2 hs], fun hn => by simp [h3 hn]⟩
        · rw [if_neg haff0]
          exact ih cache md hmem hnd' hhas haff

theorem reconstructFile_blocked (fetch : Url → String → Option (List Nat))
    (url : Url) (md : FileMetadata)
    (hex : ∃ c ∈ md.chunks, ∀ n ∈ c.nodes, n ≠ url → fetch n c.chunkId = none) :
    (reconstructFile fetch (some url) md).1 = none := by
  rw [reconstructFile]
  have hb := reconstructChunks_blocked fetch url md.chunks hex
  rcases h : reconstructChunks fetch (some url) md.chunks with ⟨r, e⟩
  rw [h] at hb
  dsimp only at hb
  subst hb
  rfl

theorem reconstructFile_effs (fetch : Url → String → Option (List Nat))
    (avoid : Option Url) (md : FileMetadata) :
    (reconstructFile fetch avoid md).2 =
      (reconstructChunks fetch avoid md.chunks).2 := rfl

/-- C8: `preCacheFilesFromNode(url)` attempts exactly the scanned files
that reference `url` in some chunk's `nodes` and are not cached at the
moment they are reached; reconstruction never contacts the avoided `url`;
a file some chunk of which has no usable non-avoided replica fails its
reconstruction and is logged as a per-file failure (processing continues;
the function is total and never fails as a whole) and is never logged as
cached; files whose avoiding reconstruction succeeds are inserted into the
cache (logged `cachedOk` alongside the `cacheSet`). -/
theorem preCacheFilesFromNode_spec (fetch : Url → String → Option (List Nat))
    (url : Url) (files : List FileMetadata) (cache : Cache)
    (hnd : (files.map (fun m => m.fileId)).Nodup) :
    (∀ fid, PreLog.attempt fid ∈ (preCacheFilesFromNode fetch url files cache).2 →
      ∃ md ∈ files, md.fileId = fid ∧
        md.chunks.any (fun c => c.nodes.contains url) = true) ∧
    (∀ md ∈ files, cacheHas cache md.fileId = false →
      md.chunks.any (fun c => c.nodes.contains url) = true →
      PreLog.attempt md.fileId ∈ (preCacheFilesFromNode fetch url files cache).2) ∧
    (∀ md ∈ files, md.chunks.any (fun c => c.nodes.contains url) = false →
      PreLog.attempt md.fileId ∉ (preCacheFilesFromNode fetch url files cache).2) ∧
    (∀ md ∈ files, cacheHas cache md.fileId = false →
      md.chunks.any (fun c => c.nodes.contains url) = true →
      ((reconstructFile fetch (some url) md).1).isSome = true →
      PreLog.cachedOk md.fileId ∈ (preCacheFilesFromNode fetch url files cache).2) ∧
    (∀ md ∈ files,
      (∃ c ∈ md.chunks, ∀ n ∈ c.nodes, n ≠ url → fetch n c.chunkId = none) →
      (reconstructFile fetch (some url) md).1 = none ∧
      PreLog.cachedOk md.fileId ∉ (preCacheFilesFromNode fetch url files cache).2 ∧
      (cacheHas cache md.fileId = false →
        md.chunks.any (fun c => c.nodes.contains url) = true →
        PreLog.failed md.fileId ∈ (preCacheFilesFromNode fetch url files cache).2)) ∧
    (∀ md cid, Effect.nodeGet url cid ∉ (reconstructFile fetch (some url) md).2) := by
  refine ⟨?_, ?_, ?_, ?_, ?_, ?_⟩
  · intro fid h
    exact preCache_log_source fetch url files cache _ h
  · intro md hmd hhas haff
    exact (preCache_log_coverage fetch url files cache md hmd hnd hhas haff).1
  · intro md hmd haff hin
    obtain ⟨md', hmd', hfid, haff'⟩ := preCache_log_source fetch url files cache _ hin
    have heq : md' = md := List.inj_on_of_nodup_map hnd hmd' hmd hfid
    subst heq
    rw [haff] at haff'
    exact absurd haff' (by simp)
  · intro md hmd hhas haff hsome
    exact (preCache_log_coverage fetch url files cache md hmd hnd hhas haff).2.1 hsome
  · intro md hmd hex
    have hnone := reconstructFile_blocked fetch url md hex
    refine ⟨hnone, ?_, ?_⟩
    · intro hin
      obtain ⟨md', hmd', hfid, _, hsome⟩ := preCache_log_source fetch url files cache _ hin
      have heq : md' = md := List.inj_on_of_nodup_map hnd hmd' hmd hfid
      subst heq
      rw [hnone] at hsome
      simp at hsome
    · intro hhas haff
      exact (preCache_log_coverage fetch url files cache md hmd hnd hhas haff).2.2 hnone
  · intro md cid hin
    rw [reconstructFile_effs] at hin
    obtain ⟨n, cid2, heq, hne⟩ := reconstructChunks_effs fetch url md.chunks _ hin
    have : url = n := (Effect.nodeGet.injEq _ _ _ _).mp heq |>.1
    exact hne this.symm

/-- Metadata referencing the about-to-blackout node with a healthy second
replica. -/
def c8mdA : FileMetadata :=
  ⟨"fa", "a", 1,
   [⟨"fa_chunk_0", "h", ["http://localhost:4001", "http://localhost:4002"]⟩]⟩

/-- Metadata not referencing the about-to-blackout node at all. -/
def c8mdB : FileMetadata :=
  ⟨"fb", "b", 1,
   [⟨"fb_chunk_0", "h", ["http://localhost:4002", "http://localhost:4003"]⟩]⟩

/-- A fetch function under which every node except the avoided one
serves bytes. -/
def c8fetch : Url → String → Option (List Nat) :=
  fun n _ => if n = "http://localhost:4001" then none else some [5]

/-- Witness for C8: with one affected and one unaffected file, the
pre-cache pass attempts and caches exactly the affected one. -/
theorem preCacheFilesFromNode_spec_witness :
    PreLog.attempt "fa" ∈
      (preCacheFilesFromNode c8fetch "http://localhost:4001" [c8mdA, c8mdB] []).2 ∧
    PreLog.cachedOk "fa" ∈
      (preCacheFilesFromNode c8fetch "http://localhost:4001" [c8mdA, c8mdB] []).2 ∧
    PreLog.attempt "fb" ∉
      (preCacheFilesFromNode c8fetch "http://localhost:4001" [c8mdA, c8mdB] []).2 := by
  have h := preCacheFilesFromNode_spec c8fetch "http://localhost:4001" [c8mdA, c8mdB] []
    (by decide)
  refine ⟨?_, ?_, ?_⟩
  · exact h.2.1 c8mdA (by decide) (by decide) (by decide)
  · exact h.2.2.2.1 c8mdA (by decide) (by decide) (by decide) (by decide)
  · exact h.2.2.1 c8mdB (by decide) (by decide)
